import Mathlib

/-!
Shallow embedding of the Image_to_GPS extraction core
(`src/image_to_gps_gradio.py`, with the `streamlit_app.py` deltas where they
differ).  Python floats are modelled as exact rationals, exifread tag
dictionaries as a record of optional fields, and the filesystem side effects
(the HEIC scratch directory) as explicit state.
-/

namespace ImageToGps

/-- A rational value as held in one entry of an exifread GPS tag
(`value.values[i]`, a `Ratio` with integer numerator `num` and
denominator `den`). -/
structure Ratio where
  num : Int
  den : Int
deriving DecidableEq, Repr

/-- The value of a `Ratio`: `float(r.num) / float(r.den)` in the source,
modelled as exact rational division. -/
def Ratio.val (r : Ratio) : ℚ := (r.num : ℚ) / (r.den : ℚ)

/-- The three ordered entries of a GPS coordinate tag:
`value.values[0]` (degrees), `value.values[1]` (minutes),
`value.values[2]` (seconds). -/
structure DmsTag where
  d : Ratio
  m : Ratio
  s : Ratio
deriving DecidableEq, Repr

/-- `ImageGpsExtractor.convert_to_degrees`: returns
`d + (m / 60.0) + (s / 3600.0)`. -/
def convert_to_degrees (value : DmsTag) : ℚ :=
  value.d.val + value.m.val / 60 + value.s.val / 3600

/-- The result of `exifread.process_file`, restricted to the five tags the
program looks up: `GPS GPSLatitude`, `GPS GPSLatitudeRef`,
`GPS GPSLongitude`, `GPS GPSLongitudeRef`, `EXIF DateTimeOriginal`.
`none` models a key absent from the tag dictionary (`tags.get` returning
`None`); a present `IfdTag` object is always truthy in Python, so presence
coincides with truthiness. -/
structure ExifTags where
  gpsLatitude : Option DmsTag
  gpsLatitudeRef : Option String
  gpsLongitude : Option DmsTag
  gpsLongitudeRef : Option String
  dateTimeOriginal : Option String
deriving DecidableEq, Repr

/-- The empty tag dictionary (`exifread.process_file` on a file with no EXIF
data returns a dictionary with none of the five tags). -/
def emptyTags : ExifTags :=
  { gpsLatitude := none, gpsLatitudeRef := none, gpsLongitude := none,
    gpsLongitudeRef := none, dateTimeOriginal := none }

/-- The triple returned by `ImageGpsExtractor.get_gps_info`:
`(lat, lon, date_time)`, each `None` when unresolved. -/
structure GpsInfo where
  lat : Option ℚ
  lon : Option ℚ
  dateTime : Option String
deriving DecidableEq, Repr

/-- The pure tail of `ImageGpsExtractor.get_gps_info` (lines 72–97 of
`image_to_gps_gradio.py`): look up the four GPS tags and the timestamp tag,
convert both coordinates when all four GPS tags are present, and flip the
sign when the hemisphere reference differs from `"N"` / `"E"`. -/
def gpsInfoFromTags (tags : ExifTags) : GpsInfo :=
  match tags.gpsLatitude, tags.gpsLatitudeRef, tags.gpsLongitude, tags.gpsLongitudeRef with
  | some gpsLatitude, some gpsLatitudeRef, some gpsLongitude, some gpsLongitudeRef =>
    let lat := convert_to_degrees gpsLatitude
    let lon := convert_to_degrees gpsLongitude
    let lat := if gpsLatitudeRef ≠ "N" then -lat else lat
    let lon := if gpsLongitudeRef ≠ "E" then -lon else lon
    { lat := some lat, lon := some lon, dateTime := tags.dateTimeOriginal }
  | _, _, _, _ =>
    { lat := none, lon := none, dateTime := tags.dateTimeOriginal }

/-- ASCII lowercasing of one character, as `str.lower` does on the ASCII
file names involved here. -/
def pyLowerChar (c : Char) : Char :=
  if 65 ≤ c.toNat ∧ c.toNat ≤ 90 then Char.ofNat (c.toNat + 32) else c

/-- `s.lower()` (character-list implementation, so that terms evaluate
inside the kernel). -/
def strLower (s : String) : String := String.mk (s.data.map pyLowerChar)

/-- `s.endswith(suf)`. -/
def strEndsWith (s suf : String) : Bool := List.isSuffixOf suf.data s.data

def splitOnCharAux (c : Char) : List Char → List Char → List (List Char)
  | [], acc => [acc.reverse]
  | x :: xs, acc =>
    if x = c then acc.reverse :: splitOnCharAux c xs []
    else splitOnCharAux c xs (x :: acc)

/-- Split a string at every occurrence of a separator character. -/
def strSplitOnChar (s : String) (c : Char) : List String :=
  (splitOnCharAux c s.data []).map String.mk

/-- `file_path.lower().endswith(".heic")`. -/
def isHeicName (s : String) : Bool := strEndsWith (strLower s) ".heic"

/-- `file.lower().endswith((".jpg", ".jpeg", ".png", ".heic"))`. -/
def hasImageExt (s : String) : Bool :=
  strEndsWith (strLower s) ".jpg" || strEndsWith (strLower s) ".jpeg" ||
    strEndsWith (strLower s) ".png" || strEndsWith (strLower s) ".heic"

/-- `os.path.basename`: the part of the path after the last `"/"`. -/
def pyBasename (s : String) : String := (strSplitOnChar s '/').getLastD s

/-- `os.path.splitext(p)[0]`: drop the extension at the last dot, unless every
character before that dot is itself a dot (so a leading-dots name such as
`".heic"` keeps its full name). -/
def splitextRoot (p : String) : String :=
  let cs := p.toList
  let dotPositions := (List.range cs.length).filter fun i => cs.getD i ' ' = '.'
  match dotPositions.getLast? with
  | none => p
  | some k =>
    if (List.range k).any (fun j => cs.getD j '.' ≠ '.') then
      String.mk (cs.take k)
    else p

/-- The name the HEIC branch of `get_gps_info` saves the transcoded file
under inside the scratch directory:
`os.path.splitext(os.path.basename(file_path))[0] + ".jpg"`. -/
def transcodedName (filePath : String) : String :=
  splitextRoot (pyBasename filePath) ++ ".jpg"

/-- One image file as the Directory Scanner sees it.  `readable` is whether
opening the file and parsing its metadata succeeds (`Image.open` for HEIC,
`open` plus `exifread.process_file` otherwise); `exif` is the embedded EXIF
block, `none` when the file carries none.  `exifread.process_file` on a file
without an EXIF block returns an empty tag dictionary, and the HEIC save
propagates the block byte-for-byte when present, so in both branches the
effective tag dictionary of a readable file is `f.exif.getD emptyTags`. -/
structure ImageFile where
  name : String
  readable : Bool
  exif : Option ExifTags
deriving DecidableEq, Repr

/-- The state of the `output/jpg` scratch directory used by the HEIC branch:
whether the directory exists, which file names it holds, and how many times
`shutil.rmtree` has been invoked on it. -/
structure ScratchState where
  dirExists : Bool
  files : List String
  clears : Nat
deriving DecidableEq, Repr

/-- The scratch directory before a run: `__init__` creates only the `unzip`
directory, so `output/jpg` is initially absent (on a fresh output folder). -/
def initialScratch : ScratchState := { dirExists := false, files := [], clears := 0 }

/-- `ImageGpsExtractor.get_gps_info`, with the filesystem side effects on the
scratch directory made explicit.  For a `.heic` path the code first removes
the scratch directory if it exists, recreates it, opens the image (a failure
here propagates as an exception, modelled as `Except.error`), saves the
JPEG copy (carrying the EXIF block when present), and continues on that
copy; for other paths it reads the file directly.  The returned triple is
`gpsInfoFromTags` of the effective tag dictionary. -/
def get_gps_info (st : ScratchState) (f : ImageFile) :
    ScratchState × Except Unit GpsInfo :=
  if isHeicName f.name then
    let st1 : ScratchState :=
      { dirExists := true, files := [],
        clears := st.clears + (if st.dirExists then 1 else 0) }
    if f.readable then
      let st2 : ScratchState :=
        { dirExists := true, files := [transcodedName f.name], clears := st1.clears }
      (st2, Except.ok (gpsInfoFromTags (f.exif.getD emptyTags)))
    else (st1, Except.error ())
  else
    if f.readable then (st, Except.ok (gpsInfoFromTags (f.exif.getD emptyTags)))
    else (st, Except.error ())

/-- One entry of the list built by `extract_gps_from_images`: the dictionary
`{"File": file, "Latitude": lat, "Longitude": lon, "DateTime": date_time}`. -/
structure Record where
  file : String
  latitude : ℚ
  longitude : ℚ
  dateTime : Option String
deriving DecidableEq, Repr

instance : Inhabited Record := ⟨{ file := "", latitude := 0, longitude := 0, dateTime := none }⟩

/-- The loop body of `ImageGpsExtractor.extract_gps_from_images` over the
sequence of files produced by `os.walk`: filter by extension, call
`get_gps_info`, and append a record only when `lat and lon` is truthy in
Python — i.e. both coordinates resolved *and* both nonzero.  An exception
from `get_gps_info` propagates and aborts the whole loop, discarding the
records accumulated so far. -/
def extractLoop (st : ScratchState) (files : List ImageFile) (acc : List Record) :
    ScratchState × Except Unit (List Record) :=
  match files with
  | [] => (st, Except.ok acc)
  | f :: rest =>
    if hasImageExt f.name then
      match get_gps_info st f with
      | (st1, Except.error e) => (st1, Except.error e)
      | (st1, Except.ok info) =>
        match info.lat, info.lon with
        | some la, some lo =>
          if la ≠ 0 ∧ lo ≠ 0 then
            extractLoop st1 rest
              (acc ++ [{ file := f.name, latitude := la, longitude := lo,
                         dateTime := info.dateTime }])
          else extractLoop st1 rest acc
        | _, _ => extractLoop st1 rest acc
    else extractLoop st rest acc

/-- `ImageGpsExtractor.extract_gps_from_images`: scan the walked file
sequence and collect the records. -/
def extract_gps_from_images (st : ScratchState) (files : List ImageFile) :
    ScratchState × Except Unit (List Record) :=
  extractLoop st files []

/-- Whether a file contributes a record to the batch: image extension,
both coordinates resolved, and both nonzero (Python truthiness of the
floats in `if lat and lon`). -/
def contributes (f : ImageFile) : Bool :=
  hasImageExt f.name &&
    match (gpsInfoFromTags (f.exif.getD emptyTags)).lat,
          (gpsInfoFromTags (f.exif.getD emptyTags)).lon with
    | some la, some lo => decide (la ≠ 0 ∧ lo ≠ 0)
    | _, _ => false

/-- The record a contributing file appends to the batch. -/
def mkRecord (f : ImageFile) : Record :=
  { file := f.name,
    latitude := ((gpsInfoFromTags (f.exif.getD emptyTags)).lat).getD 0,
    longitude := ((gpsInfoFromTags (f.exif.getD emptyTags)).lon).getD 0,
    dateTime := (gpsInfoFromTags (f.exif.getD emptyTags)).dateTime }

/-- A parsed timestamp, as `pd.to_datetime(x, format="%Y:%m:%d %H:%M:%S")`
produces from a raw EXIF string. -/
structure DateTime6 where
  year : Nat
  month : Nat
  day : Nat
  hour : Nat
  minute : Nat
  second : Nat
deriving DecidableEq, Repr

/-- Sort key of a timestamp: with the component bounds enforced by parsing
(month ≤ 12 < 16, day ≤ 31 < 32, hour ≤ 23 < 32, minute, second ≤ 59 < 64)
this mixed-radix encoding is order-isomorphic to chronological order, i.e.
to the datetime64 value pandas sorts on. -/
def DateTime6.key (t : DateTime6) : Nat :=
  ((((t.year * 16 + t.month) * 32 + t.day) * 32 + t.hour) * 64 + t.minute) * 64 + t.second

def isLeapYear (y : Nat) : Bool :=
  (y % 4 = 0 && y % 100 ≠ 0) || y % 400 = 0

def daysInMonth (y m : Nat) : Nat :=
  if m = 2 then (if isLeapYear y then 29 else 28)
  else if m = 4 ∨ m = 6 ∨ m = 9 ∨ m = 11 then 30
  else 31

def digitVal (c : Char) : Option Nat :=
  if c.isDigit then some (c.toNat - 48) else none

def parse2 (a b : Char) : Option Nat := do
  let x ← digitVal a
  let y ← digitVal b
  pure (10 * x + y)

def parse4 (a b c d : Char) : Option Nat := do
  let x ← parse2 a b
  let y ← parse2 c d
  pure (100 * x + y)

/-- Earliest whole second representable by a pandas nanosecond `Timestamp`
(`Timestamp.min` is 1677-09-21 00:12:43.145224193). -/
def pandasMinTs : DateTime6 :=
  { year := 1677, month := 9, day := 21, hour := 0, minute := 12, second := 44 }

/-- Latest whole second representable by a pandas nanosecond `Timestamp`
(`Timestamp.max` is 2262-04-11 23:47:16.854775807). -/
def pandasMaxTs : DateTime6 :=
  { year := 2262, month := 4, day := 11, hour := 23, minute := 47, second := 16 }

/-- Strict parse of the fixed-width layout `YYYY:MM:DD HH:MM:SS` with
calendar validation and the nanosecond-`Timestamp` range guard; any failure
is coerced to `none` (NaT), per `errors="coerce"`. -/
def strptimeExact (str : String) : Option DateTime6 :=
  match str.toList with
  | [y1, y2, y3, y4, c1, mo1, mo2, c2, d1, d2, sp, h1, h2, c3, mi1, mi2, c4, s1, s2] =>
    if c1 = ':' ∧ c2 = ':' ∧ sp = ' ' ∧ c3 = ':' ∧ c4 = ':' then
      match parse4 y1 y2 y3 y4, parse2 mo1 mo2, parse2 d1 d2,
            parse2 h1 h2, parse2 mi1 mi2, parse2 s1 s2 with
      | some y, some mo, some d, some h, some mi, some se =>
        if 1 ≤ mo ∧ mo ≤ 12 ∧ 1 ≤ d ∧ d ≤ daysInMonth y mo ∧
            h ≤ 23 ∧ mi ≤ 59 ∧ se ≤ 59 then
          let t : DateTime6 :=
            { year := y, month := mo, day := d, hour := h, minute := mi, second := se }
          if pandasMinTs.key ≤ t.key ∧ t.key ≤ pandasMaxTs.key then some t else none
        else none
      | _, _, _, _, _, _ => none
    else none
  | _ => none

/-- `pd.to_datetime(value, format="%Y:%m:%d %H:%M:%S", errors="coerce")` on
one cell of the `DateTime` column: `None` becomes NaT, a string is parsed
strictly against the format and coerced to NaT on failure. -/
def parseRecordDateTime : Option String → Option DateTime6
  | none => none
  | some s => strptimeExact s

def pad2 (n : Nat) : String :=
  if n < 10 then "0" ++ toString n else toString n

def pad4 (n : Nat) : String :=
  if n < 10 then "000" ++ toString n
  else if n < 100 then "00" ++ toString n
  else if n < 1000 then "0" ++ toString n
  else toString n

/-- How `DataFrame.to_csv` serializes a second-resolution `Timestamp` cell:
ISO format with a space separator, `YYYY-MM-DD HH:MM:SS`. -/
def DateTime6.render (t : DateTime6) : String :=
  pad4 t.year ++ "-" ++ pad2 t.month ++ "-" ++ pad2 t.day ++ " " ++
    pad2 t.hour ++ ":" ++ pad2 t.minute ++ ":" ++ pad2 t.second

/-!
`df.sort_values(by="DateTime", ascending=True)` on a single column calls
pandas `nargsort` with the default `kind="quicksort"` and
`na_position="last"`: the NaT entries are masked out, the remaining values
are ordered with numpy's `argsort(kind='quicksort')` — introsort: median-of-3
quicksort with an insertion-sort cutoff at `SMALL_QUICKSORT = 15` and a
heapsort fallback once a global depth budget `2 * msb(n)` is exhausted — and
the NaT positions are appended in their original order.  The functions below
are a direct port of `aquicksort` / `aheapsort` from numpy's
`npysort/quicksort.c.src` and `npysort/heapsort.c.src`, operating on a list
`ts` of indices into a list `keys` of values; the C `while` loops are
written with an explicit fuel argument that is always supplied large enough
to be inexhaustible in reachable states. -/

def SMALL_QUICKSORT : Nat := 15

/-- Key value at key index `i` (`v[i]`). -/
def kv (keys : List Nat) (i : Nat) : Nat := keys.getD i 0

/-- Key value behind position `p` of the index list (`v[*p]`). -/
def tsv (keys ts : List Nat) (p : Nat) : Nat := kv keys (ts.getD p 0)

/-- `INTP_SWAP(*i, *j)` on the index list. -/
def swapL (l : List Nat) (i j : Nat) : List Nat :=
  (l.set i (l.getD j 0)).set j (l.getD i 0)

/-- `do ++pi; while (LT(v[*pi], vp));` — first position `≥ i` whose key is
not below the pivot. -/
def scanUp (keys ts : List Nat) (vp : Nat) : Nat → Nat → Nat
  | 0, i => i
  | fuel+1, i => if tsv keys ts i < vp then scanUp keys ts vp fuel (i + 1) else i

/-- `do --pj; while (LT(vp, v[*pj]));` — first position `≤ j` (descending)
whose key is not above the pivot. -/
def scanDown (keys ts : List Nat) (vp : Nat) : Nat → Nat → Nat
  | 0, j => j
  | fuel+1, j => if vp < tsv keys ts j then scanDown keys ts vp fuel (j - 1) else j

/-- The Hoare partition exchange loop of `aquicksort`. -/
def partLoop (keys : List Nat) (vp : Nat) : Nat → List Nat → Nat → Nat → List Nat × Nat
  | 0, ts, i, _ => (ts, i)
  | fuel+1, ts, i, j =>
    let i1 := scanUp keys ts vp (ts.length + 1) (i + 1)
    let j1 := scanDown keys ts vp (ts.length + 1) (j - 1)
    if j1 ≤ i1 then (ts, i1)
    else partLoop keys vp fuel (swapL ts i1 j1) i1 j1

/-- The three conditional median-of-3 swaps at positions `pl`, `pm`, `pr`. -/
def medianSwaps (keys ts : List Nat) (pl pm pr : Nat) : List Nat :=
  let ts1 := if tsv keys ts pm < tsv keys ts pl then swapL ts pm pl else ts
  let ts2 := if tsv keys ts1 pr < tsv keys ts1 pm then swapL ts1 pr pm else ts1
  if tsv keys ts2 pm < tsv keys ts2 pl then swapL ts2 pm pl else ts2

/-- One full `aquicksort` partition step on the segment `[pl, pr]`:
median-of-3, stash the pivot at `pr - 1`, run the exchange loop, and swap
the pivot into its final position.  Returns the new index list and the
pivot position. -/
def partitionSeg (keys ts : List Nat) (pl pr : Nat) : List Nat × Nat :=
  let pm := pl + (pr - pl) / 2
  let ts1 := medianSwaps keys ts pl pm pr
  let vp := tsv keys ts1 pm
  let ts2 := swapL ts1 pm (pr - 1)
  let res := partLoop keys vp (ts2.length + 1) ts2 pl (pr - 1)
  (swapL res.1 res.2 (pr - 1), res.2)

/-- The inner shifting loop of the final insertion sort:
`while (pj > pl && LT(vp, v[*pk])) *pj-- = *pk--;`. -/
def insShift (keys : List Nat) (vp pl : Nat) : Nat → List Nat → Nat → List Nat × Nat
  | 0, ts, pj => (ts, pj)
  | fuel+1, ts, pj =>
    if pl < pj ∧ vp < tsv keys ts (pj - 1) then
      insShift keys vp pl fuel (ts.set pj (ts.getD (pj - 1) 0)) (pj - 1)
    else (ts, pj)

/-- The insertion sort over the segment `[pl, pr]` run by `aquicksort` on
small segments. -/
def insLoop (keys : List Nat) (pl pr : Nat) : Nat → List Nat → Nat → List Nat
  | 0, ts, _ => ts
  | fuel+1, ts, pi =>
    if pi ≤ pr then
      let vi := ts.getD pi 0
      let res := insShift keys (kv keys vi) pl (ts.length + 1) ts pi
      insLoop keys pl pr fuel (res.1.set res.2 vi) (pi + 1)
    else ts

def insertionSeg (keys ts : List Nat) (pl pr : Nat) : List Nat :=
  insLoop keys pl pr (pr + 2 - pl) ts (pl + 1)

/-- The sift-down loop of `aheapsort` (1-based positions over the segment
starting at `pl`; `a[x]` is `ts` position `pl + x - 1`; `tmp` is a key
index). -/
def siftDown (keys : List Nat) (pl tmp n : Nat) : Nat → List Nat → Nat → Nat → List Nat × Nat
  | 0, ts, i, _ => (ts, i)
  | fuel+1, ts, i, j =>
    if j ≤ n then
      let j1 := if j < n ∧ tsv keys ts (pl + j - 1) < tsv keys ts (pl + j) then j + 1 else j
      if kv keys tmp < tsv keys ts (pl + j1 - 1) then
        siftDown keys pl tmp n fuel (ts.set (pl + i - 1) (ts.getD (pl + j1 - 1) 0)) j1 (j1 + j1)
      else (ts, i)
    else (ts, i)

/-- The heapify phase of `aheapsort`: `for (l = n >> 1; l > 0; --l)`. -/
def heapifyLoop (keys : List Nat) (pl n : Nat) : Nat → List Nat → Nat → List Nat
  | 0, ts, _ => ts
  | fuel+1, ts, l =>
    if 1 ≤ l then
      let tmp := ts.getD (pl + l - 1) 0
      let res := siftDown keys pl tmp n (n + 1) ts l (2 * l)
      heapifyLoop keys pl n fuel (res.1.set (pl + res.2 - 1) tmp) (l - 1)
    else ts

/-- The extraction phase of `aheapsort`: `for (; n > 1;)`. -/
def heapExtract (keys : List Nat) (pl : Nat) : Nat → List Nat → Nat → List Nat
  | 0, ts, _ => ts
  | fuel+1, ts, n =>
    if 1 < n then
      let tmp := ts.getD (pl + n - 1) 0
      let ts1 := ts.set (pl + n - 1) (ts.getD pl 0)
      let n1 := n - 1
      let res := siftDown keys pl tmp n1 (n1 + 1) ts1 1 2
      heapExtract keys pl fuel (res.1.set (pl + res.2 - 1) tmp) n1
    else ts

/-- `aheapsort` on the segment of length `n` starting at `pl`. -/
def heapsortSeg (keys ts : List Nat) (pl n : Nat) : List Nat :=
  heapExtract keys pl (n + 1) (heapifyLoop keys pl n (n / 2 + 1) ts (n / 2)) n

/-- The introsort driver of `aquicksort`: partition while the segment is
longer than `SMALL_QUICKSORT`, processing the smaller part first and the
larger (stacked) part afterwards, threading the single shared depth budget
`depth` through; fall back to `aheapsort` once it drops below zero; finish
small segments with the insertion sort. -/
def introSeg (keys : List Nat) : Nat → List Nat → Nat → Nat → Int → List Nat × Int
  | 0, ts, _, _, depth => (ts, depth)
  | fuel+1, ts, pl, pr, depth =>
    if SMALL_QUICKSORT < pr - pl then
      if depth < 0 then
        (heapsortSeg keys ts pl (pr - pl + 1), depth - 1)
      else
        let res := partitionSeg keys ts pl pr
        if res.2 - pl < pr - res.2 then
          let r1 := introSeg keys fuel res.1 pl (res.2 - 1) (depth - 1)
          introSeg keys fuel r1.1 (res.2 + 1) pr r1.2
        else
          let r1 := introSeg keys fuel res.1 (res.2 + 1) pr (depth - 1)
          introSeg keys fuel r1.1 pl (res.2 - 1) r1.2
    else
      (insertionSeg keys ts pl pr, depth)

/-- Fuel-based binary logarithm (`log2fuel fuel n = ⌊log₂ n⌋` whenever
`n ≤ fuel`), used to keep `npy_get_msb` structurally recursive. -/
def log2fuel : Nat → Nat → Nat
  | 0, _ => 0
  | fuel+1, n => if 2 ≤ n then log2fuel fuel (n / 2) + 1 else 0

/-- `npy_get_msb(n)`: index of the most significant set bit (`⌊log₂ n⌋` for
positive `n`), which sizes the introsort depth budget `depth_limit`. -/
def npyMsb (n : Nat) : Nat := log2fuel n n

/-- numpy `argsort(kind='quicksort')` of `keys`: sort the identity index
list with `aquicksort`. -/
def npArgsort (keys : List Nat) : List Nat :=
  (introSeg keys (keys.length + 2) (List.range keys.length) 0 (keys.length - 1)
    (2 * (npyMsb keys.length : Int))).1

/-- pandas `nargsort(items, kind="quicksort", ascending=True,
na_position="last")`: argsort the non-NaT values, map back to original
positions, and append the NaT positions in original order. -/
def nargsort (okeys : List (Option Nat)) : List Nat :=
  let idx := List.range okeys.length
  let nonNanIdx := idx.filter fun i => (okeys.getD i none).isSome
  let nanIdx := idx.filter fun i => (okeys.getD i none).isNone
  let nonNans := nonNanIdx.map fun i => (okeys.getD i none).getD 0
  (npArgsort nonNans).map (fun p => nonNanIdx.getD p 0) ++ nanIdx

/-- Sort key of one record, as `save_to_csv` computes it:
`pd.to_datetime` of the raw `DateTime` cell (`none` = NaT). -/
def recordKey (r : Record) : Option Nat :=
  (parseRecordDateTime r.dateTime).map DateTime6.key

/-- The `DateTime` cell as it reaches the CSV: the column is overwritten
with the parsed datetimes before `to_csv`, so a parsable raw string is
re-serialized as `YYYY-MM-DD HH:MM:SS` and NaT renders as the empty
string. -/
def renderCell (odt : Option String) : String :=
  match parseRecordDateTime odt with
  | some t => t.render
  | none => ""

/-- One row of the written CSV.  The numeric cells keep their rational
value (their decimal serialization is not modelled). -/
structure Row where
  file : String
  latitude : ℚ
  longitude : ℚ
  dateTime : String
deriving DecidableEq, Repr

def renderRow (r : Record) : Row :=
  { file := r.file, latitude := r.latitude, longitude := r.longitude,
    dateTime := renderCell r.dateTime }

/-- The CSV artifact: header row and data rows. -/
structure Csv where
  header : List String
  rows : List Row
deriving DecidableEq, Repr

/-- `ImageGpsExtractor.save_to_csv` (gradio variant): build the DataFrame
(columns in dict-key order `File, Latitude, Longitude, DateTime`), replace
the `DateTime` column by its parsed values, sort by it ascending, and write
the CSV without the index. -/
def save_to_csv (data : List Record) : Csv :=
  let perm := nargsort (data.map recordKey)
  { header := ["File", "Latitude", "Longitude", "DateTime"],
    rows := perm.map fun i => renderRow (data.getD i default) }

/-- One entry of the streamlit variant's batch: the same dictionary with
`"UserID"` as the first key. -/
structure StRecord where
  userId : String
  file : String
  latitude : ℚ
  longitude : ℚ
  dateTime : Option String
deriving DecidableEq, Repr

instance : Inhabited StRecord :=
  ⟨{ userId := "", file := "", latitude := 0, longitude := 0, dateTime := none }⟩

structure StRow where
  userId : String
  file : String
  latitude : ℚ
  longitude : ℚ
  dateTime : String
deriving DecidableEq, Repr

structure StCsv where
  header : List String
  rows : List StRow
deriving DecidableEq, Repr

def renderStRow (r : StRecord) : StRow :=
  { userId := r.userId, file := r.file, latitude := r.latitude,
    longitude := r.longitude, dateTime := renderCell r.dateTime }

/-- `ImageGpsExtractor.save_to_csv` (streamlit variant): identical sorting
logic; the DataFrame's first column is `UserID`. -/
def save_to_csv_st (data : List StRecord) : StCsv :=
  let perm := nargsort (data.map fun r => (parseRecordDateTime r.dateTime).map DateTime6.key)
  { header := ["UserID", "File", "Latitude", "Longitude", "DateTime"],
    rows := perm.map fun i => renderStRow (data.getD i default) }

/-- The user-visible failures of the gradio `process_zip` driver. -/
inductive PipeError where
  | noFile
  | notZip
  | emptyResult
  | readFailure
deriving DecidableEq, Repr

/-- Which pipeline stages performed work during a run. -/
structure RunEffects where
  unzipped : Bool
  scanned : Bool
  csvWritten : Bool
deriving DecidableEq, Repr

/-- The gradio `process_zip` driver: validate the upload (present, `.zip`
extension after lowercasing) before any processing, unpack, scan, raise the
empty-result error when no records were collected, otherwise export.
`archive` is the walked file sequence of the unpacked tree; an exception
escaping the scan surfaces as `readFailure`. -/
def process_zip (zipFile : Option String) (archive : List ImageFile) (st : ScratchState) :
    Except PipeError Csv × RunEffects :=
  match zipFile with
  | none =>
    (Except.error PipeError.noFile,
     { unzipped := false, scanned := false, csvWritten := false })
  | some name =>
    if ¬ (strEndsWith (strLower name) ".zip") then
      (Except.error PipeError.notZip,
       { unzipped := false, scanned := false, csvWritten := false })
    else
      match extract_gps_from_images st archive with
      | (_, Except.error _) =>
        (Except.error PipeError.readFailure,
         { unzipped := true, scanned := true, csvWritten := false })
      | (_, Except.ok data) =>
        if data.isEmpty then
          (Except.error PipeError.emptyResult,
           { unzipped := true, scanned := true, csvWritten := false })
        else
          (Except.ok (save_to_csv data),
           { unzipped := true, scanned := true, csvWritten := true })

/-! Concrete example inputs shared by witnesses and counterexamples. -/

/-- EXIF tags of the spec's round-trip example: 35°40'12"N, 139°45'30"E. -/
def tokyoTags : ExifTags :=
  { gpsLatitude := some ⟨⟨35, 1⟩, ⟨40, 1⟩, ⟨12, 1⟩⟩,
    gpsLatitudeRef := some "N",
    gpsLongitude := some ⟨⟨139, 1⟩, ⟨45, 1⟩, ⟨30, 1⟩⟩,
    gpsLongitudeRef := some "E",
    dateTimeOriginal := some "2023:01:05 12:30:00" }

def goodJpg : ImageFile := { name := "good.jpg", readable := true, exif := some tokyoTags }

def goodJpg2 : ImageFile := { name := "good2.jpg", readable := true, exif := some tokyoTags }

/-- A file `os.walk` lists but that cannot be opened / parsed. -/
def corruptJpg : ImageFile := { name := "bad.jpg", readable := false, exif := none }

/-- Tags whose latitude converts to exactly 0.0 degrees (the equator) while
the longitude is nonzero — all four GPS tags present. -/
def equatorTags : ExifTags :=
  { gpsLatitude := some ⟨⟨0, 1⟩, ⟨0, 1⟩, ⟨0, 1⟩⟩,
    gpsLatitudeRef := some "N",
    gpsLongitude := some ⟨⟨10, 1⟩, ⟨0, 1⟩, ⟨0, 1⟩⟩,
    gpsLongitudeRef := some "E",
    dateTimeOriginal := none }

/-! # Theorems -/

/-- C10: for every input image, the triple returned by the Metadata Reader
has latitude absent if and only if longitude is absent: the reader sets
both coordinates (when all four GPS tags are present) or neither. -/
theorem lat_none_iff_lon_none (tags : ExifTags) :
    (gpsInfoFromTags tags).lat = none ↔ (gpsInfoFromTags tags).lon = none := by
  unfold gpsInfoFromTags
  rcases tags with ⟨glat, glatR, glon, glonR, dt⟩
  cases glat <;> cases glatR <;> cases glon <;> cases glonR <;> simp

/-- C1: for every DMS triple of rationals with nonzero denominators and a
hemisphere reference, the converter returns `d + m/60 + s/3600`, the
Metadata Reader negates it exactly when the reference is not the positive
hemisphere code (`"N"` for latitude, `"E"` for longitude), and with a
positive-hemisphere reference and non-negative components the result is
non-negative. -/
theorem converter_formula_and_sign (tags : ExifTags) (glat glon : DmsTag)
    (glatRef glonRef : String)
    (hlat : tags.gpsLatitude = some glat) (hlatR : tags.gpsLatitudeRef = some glatRef)
    (hlon : tags.gpsLongitude = some glon) (hlonR : tags.gpsLongitudeRef = some glonRef)
    (_hdd : glat.d.den ≠ 0) (_hdm : glat.m.den ≠ 0) (_hds : glat.s.den ≠ 0)
    (_hod : glon.d.den ≠ 0) (_hom : glon.m.den ≠ 0) (_hos : glon.s.den ≠ 0) :
    convert_to_degrees glat =
      (glat.d.num : ℚ) / (glat.d.den : ℚ) + ((glat.m.num : ℚ) / (glat.m.den : ℚ)) / 60 +
        ((glat.s.num : ℚ) / (glat.s.den : ℚ)) / 3600 ∧
    (gpsInfoFromTags tags).lat =
      some (if glatRef = "N" then convert_to_degrees glat else -convert_to_degrees glat) ∧
    (gpsInfoFromTags tags).lon =
      some (if glonRef = "E" then convert_to_degrees glon else -convert_to_degrees glon) ∧
    (0 ≤ glat.d.val → 0 ≤ glat.m.val → 0 ≤ glat.s.val → 0 ≤ convert_to_degrees glat) := by
  refine ⟨rfl, ?_, ?_, ?_⟩
  · simp only [gpsInfoFromTags, hlat, hlatR, hlon, hlonR]
    by_cases h : glatRef = "N" <;> simp [h]
  · simp only [gpsInfoFromTags, hlat, hlatR, hlon, hlonR]
    by_cases h : glonRef = "E" <;> simp [h]
  · intro h1 h2 h3
    have h60 : (0 : ℚ) ≤ glat.m.val / 60 := by positivity
    have h3600 : (0 : ℚ) ≤ glat.s.val / 3600 := by positivity
    unfold convert_to_degrees
    linarith

/-- Witness for C1 at the spec's round-trip example
(35°40'12"N / 139°45'30"E, i.e. 35.67 and 139 + 45/60 + 30/3600). -/
theorem converter_formula_and_sign_witness :
    convert_to_degrees ⟨⟨35, 1⟩, ⟨40, 1⟩, ⟨12, 1⟩⟩ =
      ((35 : Int) : ℚ) / ((1 : Int) : ℚ) + (((40 : Int) : ℚ) / ((1 : Int) : ℚ)) / 60 +
        (((12 : Int) : ℚ) / ((1 : Int) : ℚ)) / 3600 ∧
    (gpsInfoFromTags tokyoTags).lat =
      some (if "N" = "N" then convert_to_degrees ⟨⟨35, 1⟩, ⟨40, 1⟩, ⟨12, 1⟩⟩
            else -convert_to_degrees ⟨⟨35, 1⟩, ⟨40, 1⟩, ⟨12, 1⟩⟩) ∧
    (gpsInfoFromTags tokyoTags).lon =
      some (if "E" = "E" then convert_to_degrees ⟨⟨139, 1⟩, ⟨45, 1⟩, ⟨30, 1⟩⟩
            else -convert_to_degrees ⟨⟨139, 1⟩, ⟨45, 1⟩, ⟨30, 1⟩⟩) ∧
    (0 ≤ Ratio.val ⟨35, 1⟩ → 0 ≤ Ratio.val ⟨40, 1⟩ → 0 ≤ Ratio.val ⟨12, 1⟩ →
      0 ≤ convert_to_degrees ⟨⟨35, 1⟩, ⟨40, 1⟩, ⟨12, 1⟩⟩) :=
  converter_formula_and_sign tokyoTags ⟨⟨35, 1⟩, ⟨40, 1⟩, ⟨12, 1⟩⟩
    ⟨⟨139, 1⟩, ⟨45, 1⟩, ⟨30, 1⟩⟩ "N" "E" rfl rfl rfl rfl
    (by decide) (by decide) (by decide) (by decide) (by decide) (by decide)

/-- C9: a HEIC image carrying no EXIF block is still transcoded to a valid
output file in the scratch directory, and the subsequent metadata read
succeeds, returning absent latitude, longitude and timestamp. -/
theorem heic_without_exif_reads_absent (st : ScratchState) (f : ImageFile)
    (hheic : isHeicName f.name = true) (hread : f.readable = true) (hexif : f.exif = none) :
    (get_gps_info st f).2 =
      Except.ok { lat := none, lon := none, dateTime := none } ∧
    (get_gps_info st f).1.files = [transcodedName f.name] := by
  unfold get_gps_info
  simp [hheic, hread, hexif, gpsInfoFromTags, emptyTags]

/-- Witness for C9: a HEIC file with no EXIF block. -/
theorem heic_without_exif_reads_absent_witness :
    (get_gps_info initialScratch { name := "img.heic", readable := true, exif := none }).2 =
      Except.ok { lat := none, lon := none, dateTime := none } ∧
    (get_gps_info initialScratch { name := "img.heic", readable := true, exif := none }).1.files =
      [transcodedName "img.heic"] :=
  heic_without_exif_reads_absent initialScratch
    { name := "img.heic", readable := true, exif := none } (by decide) rfl rfl

/-- C8 counterexample: processing two HEIC files in one run clears the
scratch directory a second time mid-run; after the second file the first
file's transcoded output is gone, so the directory is not cleared exactly
once at run start and earlier outputs are not left unchanged. -/
theorem scratch_cleared_midrun_cex :
    (extract_gps_from_images initialScratch
        [{ name := "a.heic", readable := true, exif := none },
         { name := "b.heic", readable := true, exif := none }]).1 =
      { dirExists := true, files := ["b.jpg"], clears := 1 } ∧
    "a.jpg" ∉ (extract_gps_from_images initialScratch
        [{ name := "a.heic", readable := true, exif := none },
         { name := "b.heic", readable := true, exif := none }]).1.files := by
  decide

/-- C8 as amended: the scratch subdirectory is cleared (whenever it already
exists) and recreated once per transcode-required file, not once per run:
after normalizing a file it holds exactly that file's transcoded output, so
normalizing a later file removes every earlier file's output. -/
theorem scratch_rebuilt_per_heic_file (st : ScratchState) (f : ImageFile)
    (hheic : isHeicName f.name = true) (hread : f.readable = true) :
    (get_gps_info st f).1 =
      { dirExists := true, files := [transcodedName f.name],
        clears := st.clears + (if st.dirExists then 1 else 0) } := by
  unfold get_gps_info
  simp [hheic, hread]

/-- Witness for C8's amended statement: a HEIC file processed from a state
whose scratch directory already holds an earlier output. -/
theorem scratch_rebuilt_per_heic_file_witness :
    (get_gps_info { dirExists := true, files := ["a.jpg"], clears := 0 }
        { name := "b.heic", readable := true, exif := none }).1 =
      { dirExists := true, files := [transcodedName "b.heic"],
        clears := 0 + (if ({ dirExists := true, files := ["a.jpg"], clears := 0 } :
          ScratchState).dirExists then 1 else 0) } :=
  scratch_rebuilt_per_heic_file { dirExists := true, files := ["a.jpg"], clears := 0 }
    { name := "b.heic", readable := true, exif := none } (by decide) rfl

/-! Helper lemmas about `get_gps_info` and the scanner loop. -/

theorem get_gps_info_readable (st : ScratchState) (f : ImageFile)
    (h : f.readable = true) :
    (get_gps_info st f).2 = Except.ok (gpsInfoFromTags (f.exif.getD emptyTags)) := by
  unfold get_gps_info
  by_cases hh : isHeicName f.name <;> simp [hh, h]

theorem get_gps_info_unreadable (st : ScratchState) (f : ImageFile)
    (h : f.readable = false) :
    (get_gps_info st f).2 = Except.error () := by
  unfold get_gps_info
  by_cases hh : isHeicName f.name <;> simp [hh, h]

theorem extractLoop_cons_skip (st : ScratchState) (f : ImageFile)
    (rest : List ImageFile) (acc : List Record) (h : hasImageExt f.name = false) :
    extractLoop st (f :: rest) acc = extractLoop st rest acc := by
  conv_lhs => unfold extractLoop
  simp [h]

theorem extractLoop_cons_error (st : ScratchState) (f : ImageFile)
    (rest : List ImageFile) (acc : List Record)
    (hext : hasImageExt f.name = true) (hr : f.readable = false) :
    extractLoop st (f :: rest) acc = ((get_gps_info st f).1, Except.error ()) := by
  have h2 := get_gps_info_unreadable st f hr
  rcases hg : get_gps_info st f with ⟨st1, res⟩
  rw [hg] at h2
  subst h2
  unfold extractLoop
  simp [hext, hg]

theorem extractLoop_cons_readable (st : ScratchState) (f : ImageFile)
    (rest : List ImageFile) (acc : List Record)
    (hext : hasImageExt f.name = true) (hr : f.readable = true) :
    extractLoop st (f :: rest) acc =
      extractLoop (get_gps_info st f).1 rest
        (acc ++ if contributes f then [mkRecord f] else []) := by
  have h2 := get_gps_info_readable st f hr
  rcases hg : get_gps_info st f with ⟨st1, res⟩
  rw [hg] at h2
  subst h2
  conv_lhs => unfold extractLoop
  simp only [hext, if_true, hg]
  unfold contributes mkRecord
  rcases hla : (gpsInfoFromTags (f.exif.getD emptyTags)).lat with _ | la <;>
    rcases hlo : (gpsInfoFromTags (f.exif.getD emptyTags)).lon with _ | lo <;>
      simp [hext, hla, hlo]
  by_cases hc : la ≠ 0 ∧ lo ≠ 0 <;> simp [hc]

theorem extractLoop_ok : ∀ (files : List ImageFile) (st : ScratchState) (acc : List Record),
    (∀ f ∈ files, f.readable = true) →
    ∃ st', extractLoop st files acc =
      (st', Except.ok (acc ++ (files.filter contributes).map mkRecord)) := by
  intro files
  induction files with
  | nil => intro st acc _; exact ⟨st, by simp [extractLoop]⟩
  | cons f rest ih =>
    intro st acc hall
    by_cases hext : hasImageExt f.name
    · rw [extractLoop_cons_readable st f rest acc hext (hall f (by simp))]
      obtain ⟨st', h⟩ := ih (get_gps_info st f).1 _ (fun g hg => hall g (by simp [hg]))
      refine ⟨st', ?_⟩
      rw [h]
      by_cases hc : contributes f = true
      · simp [List.filter_cons, hc]
      · simp [List.filter_cons, Bool.of_not_eq_true hc]
    · rw [extractLoop_cons_skip st f rest acc (Bool.of_not_eq_true hext)]
      obtain ⟨st', h⟩ := ih st acc (fun g hg => hall g (by simp [hg]))
      refine ⟨st', ?_⟩
      rw [h]
      have hcf : contributes f = false := by
        unfold contributes
        simp [Bool.of_not_eq_true hext]
      simp [List.filter_cons, hcf]

/-- C6: an absent upload, or an upload whose (lowercased) file name does not
end in `.zip`, is rejected with a validation error before any processing:
nothing is unpacked, scanned, or written. -/
theorem input_validation_rejects (zipFile : Option String) (archive : List ImageFile)
    (st : ScratchState)
    (h : zipFile = none ∨
      ∃ name, zipFile = some name ∧ strEndsWith (strLower name) ".zip" = false) :
    (∃ e, (process_zip zipFile archive st).1 = Except.error e ∧
        (e = PipeError.noFile ∨ e = PipeError.notZip)) ∧
    (process_zip zipFile archive st).2 =
      { unzipped := false, scanned := false, csvWritten := false } := by
  rcases h with rfl | ⟨name, rfl, hname⟩
  · exact ⟨⟨PipeError.noFile, rfl, Or.inl rfl⟩, rfl⟩
  · unfold process_zip
    simp [hname]

/-- Witness for C6: a `.txt` upload is rejected with no work performed. -/
theorem input_validation_rejects_witness :
    (∃ e, (process_zip (some "images.txt") [goodJpg] initialScratch).1 = Except.error e ∧
        (e = PipeError.noFile ∨ e = PipeError.notZip)) ∧
    (process_zip (some "images.txt") [goodJpg] initialScratch).2 =
      { unzipped := false, scanned := false, csvWritten := false } :=
  input_validation_rejects (some "images.txt") [goodJpg] initialScratch
    (Or.inr ⟨"images.txt", rfl, by decide⟩)

/-- C5: when the scan completes with an empty batch, `process_zip` raises
the empty-result error after scanning; the Export Builder is never invoked
and no CSV is written. -/
theorem empty_result_no_csv (name : String) (archive : List ImageFile)
    (st : ScratchState)
    (hzip : strEndsWith (strLower name) ".zip" = true)
    (hempty : (extract_gps_from_images st archive).2 = Except.ok []) :
    process_zip (some name) archive st =
      (Except.error PipeError.emptyResult,
       { unzipped := true, scanned := true, csvWritten := false }) := by
  have h2 : extract_gps_from_images st archive =
      ((extract_gps_from_images st archive).1, Except.ok []) := by
    rw [← hempty]
  unfold process_zip
  rw [h2]
  simp [hzip]

/-- Witness for C5: a valid `.zip` whose unpacked tree holds no images. -/
theorem empty_result_no_csv_witness :
    process_zip (some "photos.zip") [] initialScratch =
      (Except.error PipeError.emptyResult,
       { unzipped := true, scanned := true, csvWritten := false }) :=
  empty_result_no_csv "photos.zip" [] initialScratch (by decide) rfl

/-- C3 counterexample: with a corrupt (unopenable) image between two good
ones, the whole scan aborts with the propagated exception instead of
skipping the bad file — although the same scan without the bad file
produces the two records, so the remaining files did have extractable
data. -/
theorem bad_file_aborts_batch_cex :
    (extract_gps_from_images initialScratch [goodJpg, corruptJpg, goodJpg2]).2 =
      Except.error () ∧
    (extract_gps_from_images initialScratch [goodJpg, goodJpg2]).2 =
      Except.ok [mkRecord goodJpg, mkRecord goodJpg2] := by
  have hlat : (gpsInfoFromTags tokyoTags).lat =
      some (35 + (40 : ℚ) / 60 + (12 : ℚ) / 3600) := by
    norm_num [gpsInfoFromTags, tokyoTags, convert_to_degrees, Ratio.val]
  have hlon : (gpsInfoFromTags tokyoTags).lon =
      some (139 + (45 : ℚ) / 60 + (30 : ℚ) / 3600) := by
    norm_num [gpsInfoFromTags, tokyoTags, convert_to_degrees, Ratio.val]
  have hgood : contributes goodJpg = true := by
    unfold contributes
    rw [show (goodJpg.exif.getD emptyTags) = tokyoTags from rfl, hlat, hlon]
    simp only [Bool.and_eq_true, decide_eq_true_eq]
    refine ⟨by decide, by norm_num, by norm_num⟩
  have hgood2 : contributes goodJpg2 = true := by
    unfold contributes
    rw [show (goodJpg2.exif.getD emptyTags) = tokyoTags from rfl, hlat, hlon]
    simp only [Bool.and_eq_true, decide_eq_true_eq]
    refine ⟨by decide, by norm_num, by norm_num⟩
  constructor
  · unfold extract_gps_from_images
    rw [extractLoop_cons_readable initialScratch goodJpg _ _ (by decide) rfl]
    rw [extractLoop_cons_error _ corruptJpg _ _ (by decide) rfl]
  · unfold extract_gps_from_images
    obtain ⟨st', h⟩ := extractLoop_ok [goodJpg, goodJpg2] initialScratch [] (by decide)
    rw [h]
    simp [List.filter_cons, hgood, hgood2]

/-- C3 as amended: a failure of the Metadata Reader on one individual image
is *not* caught by the Directory Scanner: the exception propagates, the
scan aborts, and no batch is produced (the streamlit variant catches it
only at top level, outside the scanner, showing an error and producing no
output). -/
theorem scan_aborts_on_unreadable (st : ScratchState) (files : List ImageFile)
    (h : ∃ f ∈ files, hasImageExt f.name = true ∧ f.readable = false) :
    (extract_gps_from_images st files).2 = Except.error () := by
  unfold extract_gps_from_images
  suffices H : ∀ (fs : List ImageFile) (st : ScratchState) (acc : List Record),
      (∃ f ∈ fs, hasImageExt f.name = true ∧ f.readable = false) →
      (extractLoop st fs acc).2 = Except.error () from H files st [] h
  intro fs
  induction fs with
  | nil =>
    intro st acc hex
    obtain ⟨f, hf, -⟩ := hex
    exact absurd hf (List.not_mem_nil f)
  | cons g rest ih =>
    intro st acc hex
    obtain ⟨f, hf, hfe, hfr⟩ := hex
    by_cases hge : hasImageExt g.name
    · by_cases hgr : g.readable
      · rw [extractLoop_cons_readable st g rest acc hge hgr]
        apply ih
        rcases List.mem_cons.mp hf with rfl | hf'
        · rw [hgr] at hfr; cases hfr
        · exact ⟨f, hf', hfe, hfr⟩
      · rw [extractLoop_cons_error st g rest acc hge (Bool.of_not_eq_true hgr)]
    · rw [extractLoop_cons_skip st g rest acc (Bool.of_not_eq_true hge)]
      apply ih
      rcases List.mem_cons.mp hf with rfl | hf'
      · rw [hfe] at hge; exact absurd rfl hge
      · exact ⟨f, hf', hfe, hfr⟩

/-- Witness for C3's amended statement: one corrupt image aborts the scan. -/
theorem scan_aborts_on_unreadable_witness :
    (extract_gps_from_images initialScratch [corruptJpg]).2 = Except.error () :=
  scan_aborts_on_unreadable initialScratch [corruptJpg]
    ⟨corruptJpg, by simp, by decide, rfl⟩

/-- C2 counterexample: an image whose four GPS tags are all present and
whose latitude resolves to exactly 0.0 degrees (the equator) is dropped
from the batch by the truthiness filter `if lat and lon`, although both
coordinates resolved. -/
theorem zero_coordinate_dropped_cex :
    (gpsInfoFromTags equatorTags).lat = some 0 ∧
    (gpsInfoFromTags equatorTags).lon = some 10 ∧
    (extract_gps_from_images initialScratch
        [{ name := "eq.jpg", readable := true, exif := some equatorTags }]).2 =
      Except.ok [] := by
  have hlat : (gpsInfoFromTags equatorTags).lat = some 0 := by
    norm_num [gpsInfoFromTags, equatorTags, convert_to_degrees, Ratio.val]
  have hlon : (gpsInfoFromTags equatorTags).lon = some 10 := by
    norm_num [gpsInfoFromTags, equatorTags, convert_to_degrees, Ratio.val]
  refine ⟨hlat, hlon, ?_⟩
  have hc : contributes { name := "eq.jpg", readable := true, exif := some equatorTags } = false := by
    unfold contributes
    rw [show (({ name := "eq.jpg", readable := true, exif := some equatorTags } :
        ImageFile).exif.getD emptyTags) = equatorTags from rfl, hlat, hlon]
    simp
  unfold extract_gps_from_images
  rw [extractLoop_cons_readable initialScratch _ _ _ (by decide) rfl, hc]
  simp [extractLoop]

/-- C2 as amended: for readable files, the batch holds exactly one record
per scanned image whose coordinates both resolved *and* are both nonzero
(the Python truthiness filter `if lat and lon` also drops a resolved
coordinate equal to 0.0 degrees); the batch size is the count of such
files, and that count is invariant under reordering of the traversal. -/
theorem scanner_batch_exactly_contributing (st : ScratchState) (files : List ImageFile)
    (hall : ∀ f ∈ files, f.readable = true) :
    (∃ st', extract_gps_from_images st files =
        (st', Except.ok ((files.filter contributes).map mkRecord))) ∧
    (∀ l, (extract_gps_from_images st files).2 = Except.ok l →
        l.length = files.countP contributes) ∧
    (∀ files' : List ImageFile, files.Perm files' →
        files'.countP contributes = files.countP contributes) := by
  obtain ⟨st', h⟩ := extractLoop_ok files st [] hall
  rw [List.nil_append] at h
  refine ⟨⟨st', h⟩, ?_, ?_⟩
  · intro l hl
    rw [show extract_gps_from_images st files = extractLoop st files [] from rfl, h] at hl
    have hXl : (files.filter contributes).map mkRecord = l := Except.ok.inj hl
    subst hXl
    simp [List.countP_eq_length_filter]
  · intro files' hperm
    exact (hperm.countP_eq contributes).symm

/-- Witness for C2's amended statement on a two-file directory where only
one file contributes. -/
theorem scanner_batch_exactly_contributing_witness :
    (∃ st', extract_gps_from_images initialScratch
        [goodJpg, { name := "eq.jpg", readable := true, exif := some equatorTags }] =
        (st', Except.ok (([goodJpg,
          { name := "eq.jpg", readable := true, exif := some equatorTags }].filter
            contributes).map mkRecord))) ∧
    (∀ l, (extract_gps_from_images initialScratch
        [goodJpg, { name := "eq.jpg", readable := true, exif := some equatorTags }]).2 =
          Except.ok l →
        l.length = [goodJpg,
          { name := "eq.jpg", readable := true, exif := some equatorTags }].countP contributes) ∧
    (∀ files' : List ImageFile,
        ([goodJpg, { name := "eq.jpg", readable := true, exif := some equatorTags }] :
          List ImageFile).Perm files' →
        files'.countP contributes =
          [goodJpg,
            { name := "eq.jpg", readable := true, exif := some equatorTags }].countP contributes) :=
  scanner_batch_exactly_contributing initialScratch
    [goodJpg, { name := "eq.jpg", readable := true, exif := some equatorTags }]
    (by decide)

/-! Helper lemmas about `nargsort`. -/

theorem nargsort_nil : nargsort [] = [] := rfl

/-- Every position emitted by `nargsort` is a valid index of the key list
(relying only on the `getD` defaults, not on any property of the numpy
sort). -/
theorem nargsort_mem_lt (okeys : List (Option Nat)) (h : 0 < okeys.length) :
    ∀ i ∈ nargsort okeys, i < okeys.length := by
  intro i hi
  unfold nargsort at hi
  rcases List.mem_append.mp hi with hm | hm
  · obtain ⟨p, hp, rfl⟩ := List.mem_map.mp hm
    by_cases hp2 : p <
        ((List.range okeys.length).filter fun i => (okeys.getD i none).isSome).length
    · rw [List.getD_eq_getElem _ _ hp2]
      have hmem := List.getElem_mem hp2
      have := (List.mem_filter.mp hmem).1
      exact List.mem_range.mp this
    · rw [List.getD_eq_default _ _ (Nat.le_of_not_lt hp2)]
      exact h
  · have := (List.mem_filter.mp hm).1
    exact List.mem_range.mp this

/-- C7 counterexample: the exported timestamp cell does not hold the
original raw EXIF text: `save_to_csv` first overwrites the `DateTime`
column with parsed datetimes, so the CSV shows the pandas serialization
`YYYY-MM-DD HH:MM:SS` (dashes) instead of the raw `YYYY:MM:DD HH:MM:SS`
(colons). -/
theorem timestamp_cell_reformatted_cex :
    (save_to_csv [{ file := "a.jpg", latitude := 35, longitude := 139,
                    dateTime := some "2023:01:05 12:30:00" }]).rows.map Row.dateTime =
      ["2023-01-05 12:30:00"] ∧
    (["2023-01-05 12:30:00"] : List String) ≠ ["2023:01:05 12:30:00"] := by
  have hperm : nargsort [recordKey { file := "a.jpg", latitude := 35, longitude := 139,
                                     dateTime := some "2023:01:05 12:30:00" }] = [0] := by
    have h1 : recordKey { file := "a.jpg", latitude := 35, longitude := 139,
                          dateTime := some "2023:01:05 12:30:00" } =
        (parseRecordDateTime (some "2023:01:05 12:30:00")).map DateTime6.key := rfl
    rw [h1]
    decide
  constructor
  · have hcell : renderCell (some "2023:01:05 12:30:00") = "2023-01-05 12:30:00" := by decide
    simp [save_to_csv, hperm, renderRow, List.getD, hcell]
  · decide

/-- C7 as amended: the columns appear in the order file name, latitude,
longitude, timestamp (with the identifier column first in the multi-user
variant), but the timestamp cell holds the *re-serialized parsed*
timestamp in format `YYYY-MM-DD HH:MM:SS` — empty when the raw value is
absent or unparsable — not the raw EXIF text. -/
theorem csv_columns_and_timestamp_cells (data : List Record) (stData : List StRecord) :
    (save_to_csv data).header = ["File", "Latitude", "Longitude", "DateTime"] ∧
    (save_to_csv_st stData).header = ["UserID", "File", "Latitude", "Longitude", "DateTime"] ∧
    ∀ row ∈ (save_to_csv data).rows, ∃ r ∈ data,
      row = renderRow r ∧ row.dateTime = renderCell r.dateTime := by
  refine ⟨rfl, rfl, ?_⟩
  intro row hrow
  rcases Nat.eq_zero_or_pos data.length with hlen | hlen
  · obtain rfl := List.length_eq_zero.mp hlen
    simp [save_to_csv, nargsort_nil] at hrow
  · unfold save_to_csv at hrow
    simp only [List.mem_map] at hrow
    obtain ⟨i, hi, rfl⟩ := hrow
    have hbound : i < data.length := by
      have := nargsort_mem_lt (data.map recordKey) (by simpa using hlen) i hi
      simpa using this
    refine ⟨data.getD i default, ?_, rfl, rfl⟩
    rw [List.getD_eq_getElem _ _ hbound]
    exact List.getElem_mem hbound

/-! Basic facts about `List.set`, `List.getD` and `swapL`, used to verify
the numpy sort port. -/

theorem getD_set_ne (l : List Nat) (i p a : Nat) (h : i ≠ p) :
    (l.set i a).getD p 0 = l.getD p 0 := by
  by_cases hp : p < l.length
  · rw [List.getD_eq_getElem _ _ (by simpa using hp), List.getD_eq_getElem _ _ hp]
    exact List.getElem_set_ne h _
  · rw [List.getD_eq_default _ _ (by simpa using Nat.le_of_not_lt hp),
      List.getD_eq_default _ _ (Nat.le_of_not_lt hp)]

theorem getD_set_self (l : List Nat) (i a : Nat) (h : i < l.length) :
    (l.set i a).getD i 0 = a := by
  rw [List.getD_eq_getElem _ _ (by simpa using h)]
  exact List.getElem_set_self _

theorem swapL_length (l : List Nat) (i j : Nat) :
    (swapL l i j).length = l.length := by
  simp [swapL]

theorem getD_swapL_of_ne (l : List Nat) (i j p : Nat) (hpi : p ≠ i) (hpj : p ≠ j) :
    (swapL l i j).getD p 0 = l.getD p 0 := by
  unfold swapL
  rw [getD_set_ne _ _ _ _ (Ne.symm hpj), getD_set_ne _ _ _ _ (Ne.symm hpi)]

theorem getD_swapL_right (l : List Nat) (i j : Nat) (hj : j < l.length) :
    (swapL l i j).getD j 0 = l.getD i 0 := by
  unfold swapL
  rw [getD_set_self _ _ _ (by simpa using hj)]

theorem getD_swapL_left (l : List Nat) (i j : Nat) (hij : i ≠ j) (hi : i < l.length) :
    (swapL l i j).getD i 0 = l.getD j 0 := by
  unfold swapL
  rw [getD_set_ne _ _ _ _ (Ne.symm hij), getD_set_self _ _ _ hi]

theorem getD_cons_set_perm : ∀ (xs : List Nat) (k : Nat) (a : Nat), k < xs.length →
    ((xs.getD k 0) :: xs.set k a).Perm (a :: xs) := by
  intro xs
  induction xs with
  | nil => intro k a h; simp at h
  | cons y ys ih =>
    intro k a h
    cases k with
    | zero => simpa using List.Perm.swap a y ys
    | succ k =>
      have hk : k < ys.length := by simpa using h
      have step1 : ((ys.getD k 0) :: y :: ys.set k a).Perm (y :: (ys.getD k 0) :: ys.set k a) :=
        List.Perm.swap y (ys.getD k 0) _
      have step2 : (y :: (ys.getD k 0) :: ys.set k a).Perm (y :: a :: ys) :=
        List.Perm.cons y (ih k a hk)
      have step3 : (y :: a :: ys).Perm (a :: y :: ys) := List.Perm.swap a y ys
      simpa using (step1.trans step2).trans step3

theorem swapL_perm (l : List Nat) (i j : Nat) (hi : i < l.length) (hj : j < l.length) :
    (swapL l i j).Perm l := by
  induction l generalizing i j with
  | nil => simp at hi
  | cons x xs ih =>
    cases i with
    | zero =>
      cases j with
      | zero => simp [swapL]
      | succ k =>
        have hk : k < xs.length := by simpa using hj
        unfold swapL
        have h1 : ((x :: xs).set 0 ((x :: xs).getD (k + 1) 0)) = (xs.getD k 0) :: xs := by
          simp [List.getD]
        rw [h1]
        have h2 : (((xs.getD k 0) :: xs).set (k + 1) ((x :: xs).getD 0 0)) =
            (xs.getD k 0) :: xs.set k x := by
          simp [List.getD]
        rw [h2]
        exact getD_cons_set_perm xs k x hk
    | succ m =>
      cases j with
      | zero =>
        have hm : m < xs.length := by simpa using hi
        unfold swapL
        have h1 : ((x :: xs).set (m + 1) ((x :: xs).getD 0 0)) = x :: xs.set m x := by
          simp [List.getD]
        rw [h1]
        have h2 : ((x :: xs.set m x).set 0 ((x :: xs).getD (m + 1) 0)) =
            (xs.getD m 0) :: xs.set m x := by
          simp [List.getD]
        rw [h2]
        exact getD_cons_set_perm xs m x hm
      | succ k =>
        have hm : m < xs.length := by simpa using hi
        have hk : k < xs.length := by simpa using hj
        unfold swapL
        have h1 : ((x :: xs).set (m + 1) ((x :: xs).getD (k + 1) 0)) =
            x :: xs.set m (xs.getD k 0) := by simp [List.getD]
        rw [h1]
        have h2 : ((x :: xs.set m (xs.getD k 0)).set (k + 1) ((x :: xs).getD (m + 1) 0)) =
            x :: ((xs.set m (xs.getD k 0)).set k (xs.getD m 0)) := by simp [List.getD]
        rw [h2]
        exact List.Perm.cons x (ih m k hm hk)

/-! Specifications of the partition scan loops. -/

theorem scanUp_ge (keys ts : List Nat) (vp : Nat) :
    ∀ (fuel i : Nat), i ≤ scanUp keys ts vp fuel i := by
  intro fuel
  induction fuel with
  | zero => intro i; simp [scanUp]
  | succ fuel ih =>
    intro i
    unfold scanUp
    by_cases h : tsv keys ts i < vp
    · simp only [h, if_true]
      exact le_trans (Nat.le_succ i) (ih (i + 1))
    · simp [h]

theorem scanUp_spec (keys ts : List Nat) (vp : Nat) :
    ∀ (fuel i s : Nat), i ≤ s → s < i + fuel → ¬ (tsv keys ts s < vp) →
      scanUp keys ts vp fuel i ≤ s ∧
      ¬ (tsv keys ts (scanUp keys ts vp fuel i) < vp) ∧
      (∀ q, i ≤ q → q < scanUp keys ts vp fuel i → tsv keys ts q < vp) := by
  intro fuel
  induction fuel with
  | zero => intro i s h1 h2 _; exact absurd h2 (by omega)
  | succ fuel ih =>
    intro i s h1 h2 h3
    unfold scanUp
    by_cases h : tsv keys ts i < vp
    · simp only [h, if_true]
      have hne : i ≠ s := fun he => h3 (he ▸ h)
      obtain ⟨a, b, c⟩ := ih (i + 1) s (by omega) (by omega) h3
      refine ⟨a, b, fun q hq hq2 => ?_⟩
      rcases Nat.eq_or_lt_of_le hq with rfl | hq'
      · exact h
      · exact c q hq' hq2
    · rw [if_neg h]
      exact ⟨h1, h, fun q hq hq2 => absurd (Nat.lt_of_le_of_lt hq hq2) (Nat.lt_irrefl i)⟩

theorem scanDown_le (keys ts : List Nat) (vp : Nat) :
    ∀ (fuel j : Nat), scanDown keys ts vp fuel j ≤ j := by
  intro fuel
  induction fuel with
  | zero => intro j; simp [scanDown]
  | succ fuel ih =>
    intro j
    unfold scanDown
    by_cases h : vp < tsv keys ts j
    · simp only [h, if_true]
      exact le_trans (ih (j - 1)) (Nat.sub_le j 1)
    · simp [h]

theorem scanDown_spec (keys ts : List Nat) (vp : Nat) :
    ∀ (fuel j s : Nat), s ≤ j → j < s + fuel → ¬ (vp < tsv keys ts s) →
      s ≤ scanDown keys ts vp fuel j ∧
      ¬ (vp < tsv keys ts (scanDown keys ts vp fuel j)) ∧
      (∀ q, scanDown keys ts vp fuel j < q → q ≤ j → vp < tsv keys ts q) := by
  intro fuel
  induction fuel with
  | zero => intro j s h1 h2 _; exact absurd h2 (by omega)
  | succ fuel ih =>
    intro j s h1 h2 h3
    unfold scanDown
    by_cases h : vp < tsv keys ts j
    · simp only [h, if_true]
      have hne : j ≠ s := fun he => h3 (he ▸ h)
      obtain ⟨a, b, c⟩ := ih (j - 1) s (by omega) (by omega) h3
      refine ⟨a, b, fun q hq hq2 => ?_⟩
      rcases Nat.eq_or_lt_of_le hq2 with rfl | hq'
      · exact h
      · exact c q hq (by omega)
    · rw [if_neg h]
      exact ⟨h1, h, fun q hq hq2 => absurd (Nat.lt_of_lt_of_le hq hq2) (Nat.lt_irrefl j)⟩

/-- Full specification of the Hoare exchange loop: under the entry
invariants (sentinels at `pl` and `R`, values up to `i` at most the pivot,
values from `j` at least the pivot) the loop permutes only positions
strictly inside `(pl, R)`, and returns a pivot position `piv ∈ [pl+1, R]`
with everything left of it at most `vp` and everything right of it (up to
`R`) at least `vp`. -/
theorem partLoop_spec (keys : List Nat) (vp pl R : Nat) :
    ∀ (fuel : Nat) (ts : List Nat) (i j : Nat),
      j ≤ i + fuel →
      R < ts.length →
      pl ≤ i → i < j → j ≤ R →
      tsv keys ts pl ≤ vp →
      tsv keys ts R = vp →
      (∀ q, pl ≤ q → q ≤ i → tsv keys ts q ≤ vp) →
      (∀ q, j ≤ q → q ≤ R → vp ≤ tsv keys ts q) →
      (partLoop keys vp fuel ts i j).1.length = ts.length ∧
      (partLoop keys vp fuel ts i j).1.Perm ts ∧
      (∀ p, p ≤ pl ∨ R ≤ p → (partLoop keys vp fuel ts i j).1.getD p 0 = ts.getD p 0) ∧
      pl + 1 ≤ (partLoop keys vp fuel ts i j).2 ∧
      (partLoop keys vp fuel ts i j).2 ≤ R ∧
      (∀ q, pl ≤ q → q < (partLoop keys vp fuel ts i j).2 →
        tsv keys (partLoop keys vp fuel ts i j).1 q ≤ vp) ∧
      (∀ q, (partLoop keys vp fuel ts i j).2 < q → q ≤ R →
        vp ≤ tsv keys (partLoop keys vp fuel ts i j).1 q) ∧
      vp ≤ tsv keys (partLoop keys vp fuel ts i j).1 (partLoop keys vp fuel ts i j).2 := by
  intro fuel
  induction fuel with
  | zero =>
    intro ts i j hfuel hR hpli hij hjR
    exact absurd hfuel (by omega)
  | succ fuel ih =>
    intro ts i j hfuel hR hpli hij hjR hsentL hsentR hV1 hV2
    have hscanU := scanUp_spec keys ts vp (ts.length + 1) (i + 1) R
      (by omega) (by omega) (by rw [hsentR]; exact Nat.lt_irrefl vp)
    have hscanU_ge := scanUp_ge keys ts vp (ts.length + 1) (i + 1)
    have hscanD := scanDown_spec keys ts vp (ts.length + 1) (j - 1) pl
      (by omega) (by omega) (by exact fun hlt => absurd hsentL (Nat.not_le_of_lt hlt))
    have hscanD_le := scanDown_le keys ts vp (ts.length + 1) (j - 1)
    set i1 := scanUp keys ts vp (ts.length + 1) (i + 1) with hi1def
    set j1 := scanDown keys ts vp (ts.length + 1) (j - 1) with hj1def
    obtain ⟨hi1R, hi1v, hi1scan⟩ := hscanU
    obtain ⟨hj1pl, hj1v, hj1scan⟩ := hscanD
    have hunf : partLoop keys vp (fuel + 1) ts i j =
        (if j1 ≤ i1 then (ts, i1) else partLoop keys vp fuel (swapL ts i1 j1) i1 j1) := rfl
    rw [hunf]
    by_cases hbreak : j1 ≤ i1
    · rw [if_pos hbreak]
      refine ⟨rfl, List.Perm.refl ts, fun p _ => rfl, by omega, hi1R, ?_, ?_, ?_⟩
      · intro q hq1 hq2
        by_cases hqi : q ≤ i
        · exact hV1 q hq1 hqi
        · exact le_of_lt (hi1scan q (by omega) hq2)
      · intro q hq1 hq2
        by_cases hqj : j ≤ q
        · exact hV2 q hqj hq2
        · exact le_of_lt (hj1scan q (by omega) (by omega))
      · exact Nat.le_of_not_lt hi1v
    · rw [if_neg hbreak]
      have hi1j1 : i1 < j1 := Nat.lt_of_not_le hbreak
      have hj1j : j1 ≤ j - 1 := hscanD_le
      have hi1lo : i + 1 ≤ i1 := hscanU_ge
      have hi1len : i1 < ts.length := by omega
      have hj1len : j1 < ts.length := by omega
      have hswlen : (swapL ts i1 j1).length = ts.length := swapL_length ts i1 j1
      have hswperm : (swapL ts i1 j1).Perm ts := swapL_perm ts i1 j1 hi1len hj1len
      have hne : i1 ≠ j1 := Nat.ne_of_lt hi1j1
      have hgetL : (swapL ts i1 j1).getD i1 0 = ts.getD j1 0 :=
        getD_swapL_left ts i1 j1 hne hi1len
      have hgetR : (swapL ts i1 j1).getD j1 0 = ts.getD i1 0 :=
        getD_swapL_right ts i1 j1 hj1len
      have hframeswap : ∀ p, p ≠ i1 → p ≠ j1 →
          (swapL ts i1 j1).getD p 0 = ts.getD p 0 :=
        fun p h1 h2 => getD_swapL_of_ne ts i1 j1 p h1 h2
      have hplne1 : pl ≠ i1 := by omega
      have hplne2 : pl ≠ j1 := by omega
      have hRne1 : R ≠ i1 := by omega
      have hRne2 : R ≠ j1 := by omega
      have hIH := ih (swapL ts i1 j1) i1 j1
        (by omega) (by omega) (by omega) hi1j1 (by omega)
        (by unfold tsv; rw [hframeswap pl hplne1 hplne2]; exact hsentL)
        (by unfold tsv; rw [hframeswap R hRne1 hRne2]; exact hsentR)
        (by intro q hq1 hq2
            rcases Nat.eq_or_lt_of_le hq2 with rfl | hqlt
            · unfold tsv; rw [hgetL]; exact Nat.le_of_not_lt hj1v
            · unfold tsv
              rw [hframeswap q (by omega) (by omega)]
              by_cases hqi : q ≤ i
              · exact hV1 q hq1 hqi
              · exact le_of_lt (hi1scan q (by omega) hqlt))
        (by intro q hq1 hq2
            rcases Nat.eq_or_lt_of_le hq1 with rfl | hqgt
            · unfold tsv; rw [hgetR]; exact Nat.le_of_not_lt hi1v
            · unfold tsv
              rw [hframeswap q (by omega) (by omega)]
              by_cases hqj : j ≤ q
              · exact hV2 q hqj hq2
              · exact le_of_lt (hj1scan q (by omega) (by omega)))
      obtain ⟨c1, c2, c3, c4, c5, c6, c7, c8⟩ := hIH
      refine ⟨by rw [c1, hswlen], c2.trans hswperm, ?_, by omega, c5, c6, c7, c8⟩
      intro p hp
      rw [c3 p hp]
      exact hframeswap p (by omega) (by omega)

/-- One conditional exchange `if (LT(v[*x], v[*y])) INTP_SWAP(*x, *y)`:
afterwards the value at `y` is at most the value at `x`, the pair of values
is either kept or transposed, and nothing else moves. -/
theorem condSwap_spec (keys ts ts' : List Nat) (x y : Nat) (hxy : x ≠ y)
    (hx : x < ts.length) (hy : y < ts.length)
    (hdef : ts' = if tsv keys ts x < tsv keys ts y then swapL ts x y else ts) :
    ts'.length = ts.length ∧ ts'.Perm ts ∧
    (∀ p, p ≠ x → p ≠ y → ts'.getD p 0 = ts.getD p 0) ∧
    tsv keys ts' y ≤ tsv keys ts' x ∧
    ((tsv keys ts' x = tsv keys ts x ∧ tsv keys ts' y = tsv keys ts y) ∨
     (tsv keys ts' x = tsv keys ts y ∧ tsv keys ts' y = tsv keys ts x)) := by
  subst hdef
  by_cases h : tsv keys ts x < tsv keys ts y
  · rw [if_pos h]
    have hgx : tsv keys (swapL ts x y) x = tsv keys ts y := by
      unfold tsv; rw [getD_swapL_left ts x y hxy hx]
    have hgy : tsv keys (swapL ts x y) y = tsv keys ts x := by
      unfold tsv; rw [getD_swapL_right ts x y hy]
    refine ⟨swapL_length ts x y, swapL_perm ts x y hx hy,
      fun p h1 h2 => getD_swapL_of_ne ts x y p h1 h2, ?_, Or.inr ⟨hgx, hgy⟩⟩
    rw [hgx, hgy]
    exact Nat.le_of_lt h
  · rw [if_neg h]
    exact ⟨rfl, List.Perm.refl ts, fun p _ _ => rfl, Nat.le_of_not_lt h,
      Or.inl ⟨rfl, rfl⟩⟩

/-- The median-of-3 preamble: permutes only `{pl, pm, pr}` and afterwards
`v[*pl] ≤ v[*pm] ≤ v[*pr]`. -/
theorem medianSwaps_spec (keys ts : List Nat) (pl pm pr : Nat)
    (hplpm : pl < pm) (hpmpr : pm < pr) (hlen : pr < ts.length) :
    (medianSwaps keys ts pl pm pr).length = ts.length ∧
    (medianSwaps keys ts pl pm pr).Perm ts ∧
    (∀ p, p ≠ pl → p ≠ pm → p ≠ pr →
      (medianSwaps keys ts pl pm pr).getD p 0 = ts.getD p 0) ∧
    tsv keys (medianSwaps keys ts pl pm pr) pl ≤
      tsv keys (medianSwaps keys ts pl pm pr) pm ∧
    tsv keys (medianSwaps keys ts pl pm pr) pm ≤
      tsv keys (medianSwaps keys ts pl pm pr) pr := by
  obtain ⟨l1, p1, f1, o1, v1⟩ :=
    condSwap_spec keys ts (if tsv keys ts pm < tsv keys ts pl then swapL ts pm pl else ts)
      pm pl (by omega) (by omega) (by omega) rfl
  set ts1 := if tsv keys ts pm < tsv keys ts pl then swapL ts pm pl else ts with hts1
  obtain ⟨l2, p2, f2, o2, v2⟩ :=
    condSwap_spec keys ts1 (if tsv keys ts1 pr < tsv keys ts1 pm then swapL ts1 pr pm else ts1)
      pr pm (by omega) (by rw [l1]; omega) (by rw [l1]; omega) rfl
  set ts2 := if tsv keys ts1 pr < tsv keys ts1 pm then swapL ts1 pr pm else ts1 with hts2
  obtain ⟨l3, p3, f3, o3, v3⟩ :=
    condSwap_spec keys ts2 (if tsv keys ts2 pm < tsv keys ts2 pl then swapL ts2 pm pl else ts2)
      pm pl (by omega) (by rw [l2, l1]; omega) (by rw [l2, l1]; omega) rfl
  set ts3 := if tsv keys ts2 pm < tsv keys ts2 pl then swapL ts2 pm pl else ts2 with hts3
  have hmed : medianSwaps keys ts pl pm pr = ts3 := rfl
  rw [hmed]
  have fpl2 : tsv keys ts2 pl = tsv keys ts1 pl := by
    unfold tsv; rw [f2 pl (by omega) (by omega)]
  have fpr3 : tsv keys ts3 pr = tsv keys ts2 pr := by
    unfold tsv; rw [f3 pr (by omega) (by omega)]
  refine ⟨l3.trans (l2.trans l1), (p3.trans p2).trans p1, ?_, o3, ?_⟩
  · intro p h1 h2 h3
    rw [f3 p h2 h1, f2 p h3 h2, f1 p h2 h1]
  · rcases v3 with ⟨e1, _⟩ | ⟨e1, _⟩
    · rw [fpr3, e1]
      exact o2
    · rw [fpr3, e1, fpl2]
      rcases v2 with ⟨d1, d2⟩ | ⟨d1, d2⟩
      · calc tsv keys ts1 pl ≤ tsv keys ts1 pm := o1
          _ = tsv keys ts2 pm := d2.symm
          _ ≤ tsv keys ts2 pr := o2
      · rw [d1]
        exact o1

/-- Correctness of one full partition step on a segment `[pl, pr]` longer
than the insertion-sort cutoff: the result permutes only `[pl, pr]`, the
pivot lands at `piv ∈ [pl+1, pr-1]`, and the segment is split by the pivot
value. -/
theorem partitionSeg_spec (keys ts : List Nat) (pl pr : Nat)
    (hseg : SMALL_QUICKSORT < pr - pl) (hlen : pr < ts.length) :
    (partitionSeg keys ts pl pr).1.length = ts.length ∧
    (partitionSeg keys ts pl pr).1.Perm ts ∧
    (∀ p, p < pl ∨ pr < p → (partitionSeg keys ts pl pr).1.getD p 0 = ts.getD p 0) ∧
    pl + 1 ≤ (partitionSeg keys ts pl pr).2 ∧ (partitionSeg keys ts pl pr).2 ≤ pr - 1 ∧
    (∀ q, pl ≤ q → q < (partitionSeg keys ts pl pr).2 →
      tsv keys (partitionSeg keys ts pl pr).1 q ≤
        tsv keys (partitionSeg keys ts pl pr).1 ((partitionSeg keys ts pl pr).2)) ∧
    (∀ q, (partitionSeg keys ts pl pr).2 < q → q ≤ pr →
      tsv keys (partitionSeg keys ts pl pr).1 ((partitionSeg keys ts pl pr).2) ≤
        tsv keys (partitionSeg keys ts pl pr).1 q) := by
  have hSQ : SMALL_QUICKSORT = 15 := rfl
  rw [hSQ] at hseg
  set pm := pl + (pr - pl) / 2 with hpmdef
  have hpm1 : pl < pm := by omega
  have hpm2 : pm < pr - 1 := by omega
  obtain ⟨ml, mp, mf, mo1, mo2⟩ := medianSwaps_spec keys ts pl pm pr hpm1 (by omega) hlen
  set ts1 := medianSwaps keys ts pl pm pr with hts1
  set vp := tsv keys ts1 pm with hvp
  have hpmlen : pm < ts1.length := by rw [ml]; omega
  have hpr1len : pr - 1 < ts1.length := by rw [ml]; omega
  set ts2 := swapL ts1 pm (pr - 1) with hts2
  have l2 : ts2.length = ts.length := by rw [hts2, swapL_length, ml]
  have p2 : ts2.Perm ts1 := swapL_perm ts1 pm (pr - 1) hpmlen hpr1len
  have f2 : ∀ p, p ≠ pm → p ≠ pr - 1 → ts2.getD p 0 = ts1.getD p 0 :=
    fun p h1 h2 => getD_swapL_of_ne ts1 pm (pr - 1) p h1 h2
  have hsentR : tsv keys ts2 (pr - 1) = vp := by
    unfold tsv
    rw [hts2, getD_swapL_right _ _ _ hpr1len]
    rfl
  have hsentL : tsv keys ts2 pl ≤ vp := by
    have he : tsv keys ts2 pl = tsv keys ts1 pl := by
      unfold tsv; rw [f2 pl (by omega) (by omega)]
    rw [he]; exact mo1
  have hpr2 : vp ≤ tsv keys ts2 pr := by
    have he : tsv keys ts2 pr = tsv keys ts1 pr := by
      unfold tsv; rw [f2 pr (by omega) (by omega)]
    rw [he]; exact mo2
  obtain ⟨c1, c2, c3, c4, c5, c6, c7, c8⟩ := partLoop_spec keys vp pl (pr - 1)
    (ts2.length + 1) ts2 pl (pr - 1)
    (by omega) (by rw [l2]; omega) (le_refl pl) (by omega) (le_refl _)
    hsentL hsentR
    (by intro q hq1 hq2
        have hq : q = pl := by omega
        subst hq; exact hsentL)
    (by intro q hq1 hq2
        have hq : q = pr - 1 := by omega
        subst hq; rw [hsentR])
  set res := partLoop keys vp (ts2.length + 1) ts2 pl (pr - 1) with hres
  have hpivlen : res.2 < res.1.length := by rw [c1, l2]; omega
  have hpr1len' : pr - 1 < res.1.length := by rw [c1, l2]; omega
  have hfin : partitionSeg keys ts pl pr = (swapL res.1 res.2 (pr - 1), res.2) := rfl
  rw [hfin]
  set fin := swapL res.1 res.2 (pr - 1) with hfindef
  have ffin : ∀ p, p ≠ res.2 → p ≠ pr - 1 → fin.getD p 0 = res.1.getD p 0 :=
    fun p h1 h2 => getD_swapL_of_ne res.1 res.2 (pr - 1) p h1 h2
  have fpiv : fin.getD res.2 0 = res.1.getD (pr - 1) 0 := by
    by_cases h : res.2 = pr - 1
    · rw [hfindef, h]
      exact getD_swapL_right res.1 (pr - 1) (pr - 1) hpr1len'
    · rw [hfindef]
      exact getD_swapL_left res.1 res.2 (pr - 1) h hpivlen
  have fR : fin.getD (pr - 1) 0 = res.1.getD res.2 0 :=
    getD_swapL_right res.1 res.2 (pr - 1) hpr1len'
  have hRval : tsv keys res.1 (pr - 1) = vp := by
    have hc := c3 (pr - 1) (Or.inr (le_refl _))
    unfold tsv
    rw [hc]
    exact hsentR
  have hpivval : tsv keys fin res.2 = vp := by
    unfold tsv
    rw [fpiv]
    exact hRval
  refine ⟨?_, ?_, ?_, c4, c5, ?_, ?_⟩
  · rw [hfindef, swapL_length, c1, l2]
  · exact (((swapL_perm res.1 res.2 (pr - 1) hpivlen hpr1len').trans c2).trans p2).trans mp
  · intro p hp
    have h1 : p ≠ res.2 := by omega
    have h2 : p ≠ pr - 1 := by omega
    rw [ffin p h1 h2, c3 p (by omega), f2 p (by omega) (by omega),
      mf p (by omega) (by omega) (by omega)]
  · intro q hq1 hq2
    rw [hpivval]
    have h1 : q ≠ res.2 := by omega
    have h2 : q ≠ pr - 1 := by omega
    have he : tsv keys fin q = tsv keys res.1 q := by
      unfold tsv; rw [ffin q h1 h2]
    rw [he]
    exact c6 q hq1 hq2
  · intro q hq1 hq2
    rw [hpivval]
    by_cases hq3 : q = pr - 1
    · subst hq3
      have he : tsv keys fin (pr - 1) = tsv keys res.1 res.2 := by
        unfold tsv; rw [fR]
      rw [he]
      exact c8
    · by_cases hq4 : q = pr
      · rw [hq4]
        have he : tsv keys fin pr = tsv keys res.1 pr := by
          unfold tsv; rw [ffin pr (by omega) (by omega)]
        rw [he]
        have he2 : tsv keys res.1 pr = tsv keys ts2 pr := by
          unfold tsv; rw [c3 pr (by omega)]
        rw [he2]
        exact hpr2
      · have he : tsv keys fin q = tsv keys res.1 q := by
          unfold tsv; rw [ffin q (by omega) (by omega)]
        rw [he]
        exact c7 q hq1 (by omega)

/-! Specification of the insertion sort used on small segments. -/

theorem set_getD_self_eq (l : List Nat) (i : Nat) (h : i < l.length) :
    l.set i (l.getD i 0) = l := by
  apply List.ext_getElem
  · simp
  · intro n h1 h2
    rw [List.getElem_set]
    split
    · next heq => subst heq; rw [List.getD_eq_getElem _ _ h]
    · rfl

/-- Writing `a` where the shifting loop stopped undoes the duplication: the
composite is a permutation of simply writing `a` at the start position. -/
theorem insShift_set_perm (keys : List Nat) (vp pl : Nat) :
    ∀ (fuel : Nat) (ts : List Nat) (pj a : Nat), pj < ts.length →
      ((insShift keys vp pl fuel ts pj).1.set (insShift keys vp pl fuel ts pj).2 a).Perm
        (ts.set pj a) := by
  intro fuel
  induction fuel with
  | zero => intro ts pj a _; exact List.Perm.refl _
  | succ fuel ih =>
    intro ts pj a hpj
    unfold insShift
    by_cases hc : pl < pj ∧ vp < tsv keys ts (pj - 1)
    · rw [if_pos hc]
      have hpj1 : pj - 1 < ts.length := by omega
      have hIH := ih (ts.set pj (ts.getD (pj - 1) 0)) (pj - 1) a (by simpa using hpj1)
      refine hIH.trans ?_
      have hne : pj - 1 ≠ pj := by omega
      have e1 : (ts.set pj (ts.getD (pj - 1) 0)).set (pj - 1) a =
          swapL (ts.set pj a) (pj - 1) pj := by
        unfold swapL
        have g1 : (ts.set pj a).getD pj 0 = a := getD_set_self ts pj a hpj
        have g2 : (ts.set pj a).getD (pj - 1) 0 = ts.getD (pj - 1) 0 :=
          getD_set_ne ts pj (pj - 1) a (Ne.symm hne)
        rw [g1, g2]
        rw [List.set_comm _ _ _ hne, List.set_set]
      rw [e1]
      exact swapL_perm (ts.set pj a) (pj - 1) pj (by simpa using hpj1) (by simpa using hpj)
    · rw [if_neg hc]

/-- Characterisation of the shifting loop: it keeps positions `≤ r` and
`> pj`, moves each value of `[r, pj)` one slot up, and stops either at `pl`
or at a predecessor whose key is at most `vp`. -/
theorem insShift_spec (keys : List Nat) (vp pl : Nat) :
    ∀ (fuel : Nat) (ts : List Nat) (pj : Nat),
      pj - pl ≤ fuel → pl ≤ pj → pj < ts.length →
      pl ≤ (insShift keys vp pl fuel ts pj).2 ∧
      (insShift keys vp pl fuel ts pj).2 ≤ pj ∧
      (insShift keys vp pl fuel ts pj).1.length = ts.length ∧
      (∀ p, p ≤ (insShift keys vp pl fuel ts pj).2 ∨ pj < p →
        (insShift keys vp pl fuel ts pj).1.getD p 0 = ts.getD p 0) ∧
      (∀ p, (insShift keys vp pl fuel ts pj).2 < p → p ≤ pj →
        (insShift keys vp pl fuel ts pj).1.getD p 0 = ts.getD (p - 1) 0 ∧
          vp < kv keys (ts.getD (p - 1) 0)) ∧
      (pl < (insShift keys vp pl fuel ts pj).2 →
        ¬ (vp < tsv keys ts ((insShift keys vp pl fuel ts pj).2 - 1))) := by
  intro fuel
  induction fuel with
  | zero =>
    intro ts pj hfuel hpl _
    have hpj : pj = pl := by omega
    unfold insShift
    subst hpj
    refine ⟨le_refl _, le_refl _, rfl, fun p _ => rfl, ?_, ?_⟩
    · intro p h1 h2; exact absurd (Nat.lt_of_lt_of_le h1 h2) (Nat.lt_irrefl _)
    · intro h; exact absurd h (Nat.lt_irrefl _)
  | succ fuel ih =>
    intro ts pj hfuel hpl hpj
    unfold insShift
    by_cases hc : pl < pj ∧ vp < tsv keys ts (pj - 1)
    · rw [if_pos hc]
      set ts1 := ts.set pj (ts.getD (pj - 1) 0) with hts1
      have hlen1 : ts1.length = ts.length := by rw [hts1]; simp
      obtain ⟨a1, a2, a3, a4, a5, a6⟩ := ih ts1 (pj - 1) (by omega) (by omega) (by omega)
      have hframe1 : ∀ p, p ≠ pj → ts1.getD p 0 = ts.getD p 0 :=
        fun p h => getD_set_ne ts pj p _ (fun he => h he.symm)
      have hpjval : ts1.getD pj 0 = ts.getD (pj - 1) 0 := getD_set_self ts pj _ hpj
      refine ⟨a1, by omega, by rw [a3, hlen1], ?_, ?_, ?_⟩
      · intro p hp
        rcases hp with hp | hp
        · rw [a4 p (Or.inl hp), hframe1 p (by omega)]
        · rw [a4 p (Or.inr (by omega)), hframe1 p (by omega)]
      · intro p h1 h2
        rcases Nat.eq_or_lt_of_le h2 with rfl | hplt
        · refine ⟨?_, ?_⟩
          · rw [a4 p (Or.inr (by omega)), hpjval]
          · exact hc.2
        · have h2' : p ≤ pj - 1 := by omega
          obtain ⟨b1, b2⟩ := a5 p h1 h2'
          have hp1 : p - 1 ≠ pj := by omega
          rw [hframe1 (p - 1) hp1] at b1 b2
          exact ⟨b1, b2⟩
      · intro h
        have := a6 h
        intro hcon
        apply this
        unfold tsv at hcon ⊢
        rw [hframe1 _ (by omega)]
        exact hcon
    · rw [if_neg hc]
      refine ⟨hpl, le_refl _, rfl, fun p _ => rfl, ?_, ?_⟩
      · intro p h1 h2; exact absurd (Nat.lt_of_lt_of_le h1 h2) (Nat.lt_irrefl _)
      · intro h
        intro hcon
        exact hc ⟨h, hcon⟩

/-- The insertion sort loop keeps an already-sorted prefix `[pl, pi)` and
inserts one element per iteration; it permutes only `[pl, pr]` and leaves
the whole segment sorted. -/
theorem insLoop_spec (keys : List Nat) (pl pr : Nat) :
    ∀ (fuel : Nat) (ts : List Nat) (pi : Nat),
      pr < ts.length → pl + 1 ≤ pi → pr + 1 ≤ pi + fuel →
      (∀ q, pl ≤ q → q + 1 < pi → tsv keys ts q ≤ tsv keys ts (q + 1)) →
      (insLoop keys pl pr fuel ts pi).length = ts.length ∧
      (insLoop keys pl pr fuel ts pi).Perm ts ∧
      (∀ p, p < pl ∨ pr < p → (insLoop keys pl pr fuel ts pi).getD p 0 = ts.getD p 0) ∧
      (∀ q, pl ≤ q → q + 1 ≤ pr →
        tsv keys (insLoop keys pl pr fuel ts pi) q ≤
          tsv keys (insLoop keys pl pr fuel ts pi) (q + 1)) := by
  intro fuel
  induction fuel with
  | zero =>
    intro ts pi hlen hpi hfuel hsorted
    unfold insLoop
    exact ⟨rfl, List.Perm.refl ts, fun p _ => rfl,
      fun q h1 h2 => hsorted q h1 (by omega)⟩
  | succ fuel ih =>
    intro ts pi hlen hpi hfuel hsorted
    unfold insLoop
    by_cases hpipr : pi ≤ pr
    · rw [if_pos hpipr]
      have hpilen : pi < ts.length := by omega
      set vi := ts.getD pi 0 with hvi
      set vp := kv keys vi with hvp
      obtain ⟨a1, a2, a3, a4, a5, a6⟩ :=
        insShift_spec keys vp pl (ts.length + 1) ts pi (by omega) (by omega) hpilen
      set res := insShift keys vp pl (ts.length + 1) ts pi with hres
      set r := res.2 with hr
      set ts1 := res.1.set r vi with hts1
      have hlen1 : ts1.length = ts.length := by rw [hts1]; simp [a3]
      have hperm1 : ts1.Perm ts := by
        have := insShift_set_perm keys vp pl (ts.length + 1) ts pi vi hpilen
        rw [set_getD_self_eq ts pi hpilen] at this
        exact this
      have hrlen : r < res.1.length := by rw [a3]; omega
      have h_at_r : ts1.getD r 0 = vi := by
        rw [hts1]; exact getD_set_self res.1 r vi hrlen
      have h_lt_r : ∀ p, p < r → ts1.getD p 0 = ts.getD p 0 := by
        intro p hp
        rw [hts1, getD_set_ne _ _ _ _ (by omega), a4 p (Or.inl (by omega))]
      have h_gt : ∀ p, r < p → p ≤ pi →
          ts1.getD p 0 = ts.getD (p - 1) 0 ∧ vp < kv keys (ts.getD (p - 1) 0) := by
        intro p hp1 hp2
        obtain ⟨b1, b2⟩ := a5 p hp1 hp2
        rw [hts1, getD_set_ne _ _ _ _ (by omega), b1]
        exact ⟨rfl, b2⟩
      have h_beyond : ∀ p, pi < p → ts1.getD p 0 = ts.getD p 0 := by
        intro p hp
        rw [hts1, getD_set_ne _ _ _ _ (by omega), a4 p (Or.inr hp)]
      have hsorted1 : ∀ q, pl ≤ q → q + 1 < pi + 1 → tsv keys ts1 q ≤ tsv keys ts1 (q + 1) := by
        intro q h1 h2
        have h2' : q + 1 ≤ pi := by omega
        rcases Nat.lt_trichotomy (q + 1) r with hcase | hcase | hcase
        · unfold tsv
          rw [h_lt_r q (by omega), h_lt_r (q + 1) hcase]
          exact hsorted q h1 (by omega)
        · unfold tsv
          rw [h_lt_r q (by omega), hcase, h_at_r]
          have hstop := a6 (by omega)
          unfold tsv at hstop
          rw [show r - 1 = q by omega] at hstop
          exact Nat.le_of_not_lt hstop
        · rcases Nat.eq_or_lt_of_le hcase with hq | hq
          · have hqr : q = r := by omega
            unfold tsv
            rw [hqr, h_at_r]
            obtain ⟨b1, b2⟩ := h_gt (r + 1) (by omega) (by omega)
            rw [show r + 1 - 1 = r from by omega] at b1 b2
            rw [b1]
            exact le_of_lt b2
          · unfold tsv
            obtain ⟨b1, _⟩ := h_gt q (by omega) (by omega)
            obtain ⟨c1, _⟩ := h_gt (q + 1) (by omega) h2'
            rw [b1, c1]
            rw [show q + 1 - 1 = q from by omega]
            have := hsorted (q - 1) (by omega) (by omega)
            rw [show q - 1 + 1 = q from by omega] at this
            exact this
      obtain ⟨d1, d2, d3, d4⟩ := ih ts1 (pi + 1) (by omega) (by omega) (by omega) hsorted1
      refine ⟨by rw [d1, hlen1], d2.trans hperm1, ?_, d4⟩
      intro p hp
      rw [d3 p hp]
      rcases hp with hp | hp
      · exact h_lt_r p (by omega)
      · exact h_beyond p (by omega)
    · rw [if_neg hpipr]
      exact ⟨rfl, List.Perm.refl ts, fun p _ => rfl,
        fun q h1 h2 => hsorted q h1 (by omega)⟩

/-- `insertionSeg` sorts the segment `[pl, pr]` in place, permuting only it. -/
theorem insertionSeg_spec (keys ts : List Nat) (pl pr : Nat) (hlen : pr < ts.length) :
    (insertionSeg keys ts pl pr).length = ts.length ∧
    (insertionSeg keys ts pl pr).Perm ts ∧
    (∀ p, p < pl ∨ pr < p → (insertionSeg keys ts pl pr).getD p 0 = ts.getD p 0) ∧
    (∀ q, pl ≤ q → q + 1 ≤ pr →
      tsv keys (insertionSeg keys ts pl pr) q ≤
        tsv keys (insertionSeg keys ts pl pr) (q + 1)) := by
  unfold insertionSeg
  exact insLoop_spec keys pl pr (pr + 2 - pl) ts (pl + 1) hlen (le_refl _) (by omega)
    (fun q h1 h2 => absurd h1 (by omega))

/-! Specification of the heapsort fallback. -/

/-- Copying the value at `q` into `p` and then overwriting `q` with `a` is,
up to permutation, just writing `a` at `p`. -/
theorem set_transpose_perm (ts : List Nat) (p q a : Nat) (hpq : p ≠ q)
    (hp : p < ts.length) (hq : q < ts.length) :
    ((ts.set p (ts.getD q 0)).set q a).Perm (ts.set p a) := by
  have e1 : swapL (ts.set p a) q p = (ts.set p (ts.getD q 0)).set q a := by
    unfold swapL
    rw [getD_set_self ts p a hp, getD_set_ne ts p q a hpq]
    rw [List.set_comm a a ts hpq, List.set_set,
      List.set_comm a (ts.getD q 0) ts (Ne.symm hpq)]
  have hperm := swapL_perm (ts.set p a) q p (by simpa using hq) (by simpa using hp)
  rw [e1] at hperm
  exact hperm

theorem div_pow_ne_of_lt (x c : Nat) (h : x < c) : ∀ k : Nat, x / 2 ^ k ≠ c :=
  fun k he => absurd (he ▸ Nat.div_le_self x (2 ^ k)) (Nat.not_le_of_lt h)

theorem div_pow_succ_eq (x : Nat) (k : Nat) : x / 2 ^ k / 2 = x / 2 ^ (k + 1) := by
  rw [Nat.div_div_eq_div_mul, pow_succ]

/-- Full specification of one `aheapsort` sift-down together with the final
write of `tmp` into the hole: the composite permutes the subtree of `i`
like a single write of `tmp` at `i`, restores the heap ordering for all
pairs whose parent is at least `i`, only produces values that are `tmp` or
old segment values, and leaves the root of the sift holding `tmp` or one of
the old children values. -/
theorem siftDown_spec (keys : List Nat) (pl tmp n : Nat) :
    ∀ (fuel : Nat) (ts : List Nat) (i j : Nat),
      j = 2 * i → 1 ≤ i → i ≤ n → n + 1 ≤ fuel + i → pl + n - 1 < ts.length →
      (∀ x, 2 ≤ x → x ≤ n → i < x / 2 →
        tsv keys ts (pl + x - 1) ≤ tsv keys ts (pl + x / 2 - 1)) →
      (i ≤ (siftDown keys pl tmp n fuel ts i j).2 ∧
        (siftDown keys pl tmp n fuel ts i j).2 ≤ n) ∧
      ((siftDown keys pl tmp n fuel ts i j).1.set
          (pl + (siftDown keys pl tmp n fuel ts i j).2 - 1) tmp).length = ts.length ∧
      ((siftDown keys pl tmp n fuel ts i j).1.set
          (pl + (siftDown keys pl tmp n fuel ts i j).2 - 1) tmp).Perm
        (ts.set (pl + i - 1) tmp) ∧
      (∀ p, p < pl + i - 1 ∨ pl + n - 1 < p →
        ((siftDown keys pl tmp n fuel ts i j).1.set
          (pl + (siftDown keys pl tmp n fuel ts i j).2 - 1) tmp).getD p 0 = ts.getD p 0) ∧
      (∃ c, (c = 2 * i ∨ c = 2 * i + 1) ∧ ∀ x, 1 ≤ x → x ≤ n → x ≠ i →
        (∀ k : Nat, x / 2 ^ k ≠ c) →
        ((siftDown keys pl tmp n fuel ts i j).1.set
          (pl + (siftDown keys pl tmp n fuel ts i j).2 - 1) tmp).getD (pl + x - 1) 0 =
          ts.getD (pl + x - 1) 0) ∧
      (∀ x, 2 ≤ x → x ≤ n → i ≤ x / 2 →
        tsv keys ((siftDown keys pl tmp n fuel ts i j).1.set
          (pl + (siftDown keys pl tmp n fuel ts i j).2 - 1) tmp) (pl + x - 1) ≤
        tsv keys ((siftDown keys pl tmp n fuel ts i j).1.set
          (pl + (siftDown keys pl tmp n fuel ts i j).2 - 1) tmp) (pl + x / 2 - 1)) ∧
      (∀ x, 1 ≤ x → x ≤ n →
        (tsv keys ((siftDown keys pl tmp n fuel ts i j).1.set
          (pl + (siftDown keys pl tmp n fuel ts i j).2 - 1) tmp) (pl + x - 1) = kv keys tmp ∨
         ∃ y, 1 ≤ y ∧ y ≤ n ∧
           tsv keys ((siftDown keys pl tmp n fuel ts i j).1.set
             (pl + (siftDown keys pl tmp n fuel ts i j).2 - 1) tmp) (pl + x - 1) =
             tsv keys ts (pl + y - 1))) ∧
      (tsv keys ((siftDown keys pl tmp n fuel ts i j).1.set
          (pl + (siftDown keys pl tmp n fuel ts i j).2 - 1) tmp) (pl + i - 1) = kv keys tmp ∨
       (tsv keys ((siftDown keys pl tmp n fuel ts i j).1.set
          (pl + (siftDown keys pl tmp n fuel ts i j).2 - 1) tmp) (pl + i - 1) =
          tsv keys ts (pl + 2 * i - 1) ∧ 2 * i ≤ n) ∨
       (tsv keys ((siftDown keys pl tmp n fuel ts i j).1.set
          (pl + (siftDown keys pl tmp n fuel ts i j).2 - 1) tmp) (pl + i - 1) =
          tsv keys ts (pl + (2 * i + 1) - 1) ∧ 2 * i + 1 ≤ n)) := by
  intro fuel
  induction fuel with
  | zero =>
    intro ts i j hj h1 h2 hfuel hlen hheap
    exact absurd hfuel (by omega)
  | succ fuel ih =>
    intro ts i j hj h1 h2 hfuel hlen hheap
    subst hj
    have hilen : pl + i - 1 < ts.length := by omega
    by_cases hjn : 2 * i ≤ n
    case neg =>
      -- no children: the hole is a leaf, write tmp there
      have hunf : siftDown keys pl tmp n (fuel + 1) ts i (2 * i) = (ts, i) := by
        unfold siftDown
        rw [if_neg hjn]
      rw [hunf]
      have hframe : ∀ p, p ≠ pl + i - 1 → (ts.set (pl + i - 1) tmp).getD p 0 = ts.getD p 0 :=
        fun p hp => getD_set_ne ts (pl + i - 1) p tmp (fun he => hp he.symm)
      have hself : (ts.set (pl + i - 1) tmp).getD (pl + i - 1) 0 = tmp :=
        getD_set_self ts (pl + i - 1) tmp hilen
      refine ⟨⟨le_refl i, h2⟩, by simp, List.Perm.refl _, ?_, ?_, ?_, ?_, ?_⟩
      · intro p hp
        exact hframe p (by omega)
      · refine ⟨2 * i, Or.inl rfl, ?_⟩
        intro x hx1 hx2 hx3 _
        exact hframe (pl + x - 1) (by omega)
      · intro x hx1 hx2 hx3
        have hd : 2 * (x / 2) ≤ x := by omega
        exact absurd hx3 (by omega)
      · intro x hx1 hx2
        by_cases hxi : x = i
        · subst hxi
          left
          unfold tsv
          rw [hself]
        · right
          refine ⟨x, hx1, hx2, ?_⟩
          unfold tsv
          rw [hframe (pl + x - 1) (by omega)]
      · left
        unfold tsv
        rw [hself]
    case pos =>
      set j1 := if 2 * i < n ∧ tsv keys ts (pl + 2 * i - 1) < tsv keys ts (pl + 2 * i)
        then 2 * i + 1 else 2 * i with hj1def
      have hj1cases : j1 = 2 * i ∨ j1 = 2 * i + 1 := by
        rw [hj1def]
        split
        · exact Or.inr rfl
        · exact Or.inl rfl
      have hj1n : j1 ≤ n := by
        rw [hj1def]
        split
        · next hcnd => omega
        · exact hjn
      have hj1i : i < j1 := by omega
      have hsel1 : tsv keys ts (pl + 2 * i - 1) ≤ tsv keys ts (pl + j1 - 1) := by
        rw [hj1def]
        split
        · next hcnd =>
          have he : pl + (2 * i + 1) - 1 = pl + 2 * i := by omega
          rw [he]
          exact le_of_lt hcnd.2
        · exact le_refl _
      have hsel2 : 2 * i + 1 ≤ n → tsv keys ts (pl + 2 * i) ≤ tsv keys ts (pl + j1 - 1) := by
        intro hb
        rw [hj1def]
        split
        · next hcnd =>
          have he : pl + (2 * i + 1) - 1 = pl + 2 * i := by omega
          rw [he]
        · next hcnd =>
          have : ¬ (tsv keys ts (pl + 2 * i - 1) < tsv keys ts (pl + 2 * i)) := by
            intro hlt
            exact hcnd ⟨by omega, hlt⟩
          omega
      have hunf : siftDown keys pl tmp n (fuel + 1) ts i (2 * i) =
          (if kv keys tmp < tsv keys ts (pl + j1 - 1) then
            siftDown keys pl tmp n fuel
              (ts.set (pl + i - 1) (ts.getD (pl + j1 - 1) 0)) j1 (j1 + j1)
          else (ts, i)) := by
        conv_lhs => unfold siftDown
        rw [if_pos hjn]
      by_cases hdesc : kv keys tmp < tsv keys ts (pl + j1 - 1)
      case neg =>
        rw [hunf, if_neg hdesc]
        have hstop : tsv keys ts (pl + j1 - 1) ≤ kv keys tmp := Nat.le_of_not_lt hdesc
        have hframe : ∀ p, p ≠ pl + i - 1 →
            (ts.set (pl + i - 1) tmp).getD p 0 = ts.getD p 0 :=
          fun p hp => getD_set_ne ts (pl + i - 1) p tmp (fun he => hp he.symm)
        have hself : (ts.set (pl + i - 1) tmp).getD (pl + i - 1) 0 = tmp :=
          getD_set_self ts (pl + i - 1) tmp hilen
        refine ⟨⟨le_refl i, h2⟩, by simp, List.Perm.refl _, ?_, ?_, ?_, ?_, ?_⟩
        · intro p hp
          exact hframe p (by omega)
        · refine ⟨2 * i, Or.inl rfl, ?_⟩
          intro x hx1 hx2 hx3 _
          exact hframe (pl + x - 1) (by omega)
        · intro x hx1 hx2 hx3
          have hd : 2 * (x / 2) ≤ x := by omega
          rcases Nat.eq_or_lt_of_le hx3 with hxi | hxi
          · -- x is a child of the hole: its old value is at most the larger
            -- child's, which the stop condition bounds by tmp
            have hx2i : x = 2 * i ∨ x = 2 * i + 1 := by omega
            have hxne : x ≠ i := by omega
            unfold tsv
            rw [hframe (pl + x - 1) (by omega)]
            have hpar : pl + x / 2 - 1 = pl + i - 1 := by omega
            rw [hpar, hself]
            rcases hx2i with hx2i | hx2i
            · subst hx2i
              exact le_trans hsel1 hstop
            · subst hx2i
              have he : pl + (2 * i + 1) - 1 = pl + 2 * i := by omega
              rw [he]
              exact le_trans (hsel2 hx2) hstop
          · unfold tsv
            rw [hframe (pl + x - 1) (by omega), hframe (pl + x / 2 - 1) (by omega)]
            exact hheap x hx1 hx2 hxi
        · intro x hx1 hx2
          by_cases hxi : x = i
          · subst hxi
            left
            unfold tsv
            rw [hself]
          · right
            refine ⟨x, hx1, hx2, ?_⟩
            unfold tsv
            rw [hframe (pl + x - 1) (by omega)]
        · left
          unfold tsv
          rw [hself]
      case pos =>
        rw [hunf, if_pos hdesc]
        set ts1 := ts.set (pl + i - 1) (ts.getD (pl + j1 - 1) 0) with hts1
        have hlen1 : ts1.length = ts.length := by rw [hts1]; simp
        have hts1self : ts1.getD (pl + i - 1) 0 = ts.getD (pl + j1 - 1) 0 :=
          getD_set_self ts (pl + i - 1) _ hilen
        have hts1frame : ∀ p, p ≠ pl + i - 1 → ts1.getD p 0 = ts.getD p 0 :=
          fun p hp => getD_set_ne ts (pl + i - 1) p _ (fun he => hp he.symm)
        have hheap1 : ∀ x, 2 ≤ x → x ≤ n → j1 < x / 2 →
            tsv keys ts1 (pl + x - 1) ≤ tsv keys ts1 (pl + x / 2 - 1) := by
          intro x hx1 hx2 hx3
          have hd : 2 * (x / 2) ≤ x := by omega
          unfold tsv
          rw [hts1frame (pl + x - 1) (by omega), hts1frame (pl + x / 2 - 1) (by omega)]
          exact hheap x hx1 hx2 (by omega)
        obtain ⟨⟨r0a, r0b⟩, r1, r2, r3, ⟨c', hc', r3x⟩, r4, r5, r6⟩ :=
          ih ts1 j1 (j1 + j1) (by omega) (by omega) hj1n (by omega) (by omega) hheap1
        set res := siftDown keys pl tmp n fuel ts1 j1 (j1 + j1) with hresdef
        have hcsub : ∀ x : Nat, (∀ k : Nat, x / 2 ^ k ≠ j1) → (∀ k : Nat, x / 2 ^ k ≠ c') := by
          intro x hx k hcon
          have hc2 : c' / 2 = j1 := by
            rcases hc' with rfl | rfl <;> omega
          have : x / 2 ^ (k + 1) = j1 := by
            rw [← div_pow_succ_eq, hcon, hc2]
          exact hx (k + 1) this
        have hval_i : (res.1.set (pl + res.2 - 1) tmp).getD (pl + i - 1) 0 =
            ts.getD (pl + j1 - 1) 0 := by
          rw [r3 (pl + i - 1) (Or.inl (by omega)), hts1self]
        have huntouched : ∀ x, 1 ≤ x → x ≤ n → x ≠ i → x ≠ j1 → x < 2 * j1 →
            (res.1.set (pl + res.2 - 1) tmp).getD (pl + x - 1) 0 = ts.getD (pl + x - 1) 0 := by
          intro x hx1 hx2 hx3 hx4 hx5
          have hstep : (res.1.set (pl + res.2 - 1) tmp).getD (pl + x - 1) 0 =
              ts1.getD (pl + x - 1) 0 := by
            apply r3x x hx1 hx2 hx4
            intro k
            have : x / 2 ^ k ≤ x := Nat.div_le_self x _
            rcases hc' with rfl | rfl <;> omega
          rw [hstep, hts1frame (pl + x - 1) (by omega)]
        refine ⟨⟨by omega, r0b⟩, by rw [r1, hlen1], ?_, ?_, ?_, ?_, ?_, ?_⟩
        · refine r2.trans ?_
          have := set_transpose_perm ts (pl + i - 1) (pl + j1 - 1) tmp
            (by omega) hilen (by omega)
          exact this
        · intro p hp
          rw [r3 p (by omega), hts1frame p (by omega)]
        · refine ⟨j1, hj1cases, ?_⟩
          intro x hx1 hx2 hx3 hx4
          have hstep : (res.1.set (pl + res.2 - 1) tmp).getD (pl + x - 1) 0 =
              ts1.getD (pl + x - 1) 0 := by
            apply r3x x hx1 hx2 ?_ (hcsub x hx4)
            have := hx4 0
            simpa using this
          rw [hstep, hts1frame (pl + x - 1) (by omega)]
        · intro x hx1 hx2 hx3
          have hd : 2 * (x / 2) ≤ x := by omega
          rcases Nat.lt_or_ge (x / 2) j1 with hcase | hcase
          · rcases Nat.eq_or_lt_of_le hx3 with hxi | hxi
            · -- children of the original hole
              have hx2i : x = 2 * i ∨ x = 2 * i + 1 := by omega
              have hivar : tsv keys (res.1.set (pl + res.2 - 1) tmp) (pl + x / 2 - 1) =
                  tsv keys ts (pl + j1 - 1) := by
                unfold tsv
                have hpar : pl + x / 2 - 1 = pl + i - 1 := by omega
                rw [hpar, hval_i]
              rw [hivar]
              by_cases hxj1 : x = j1
              · -- the promoted child: its new root value is tmp or an old
                -- grandchild, both at most the old child value
                subst hxj1
                rcases r6 with r6 | ⟨r6, hb⟩ | ⟨r6, hb⟩
                · rw [r6]
                  exact le_of_lt hdesc
                · rw [r6]
                  have he : tsv keys ts1 (pl + 2 * j1 - 1) = tsv keys ts (pl + 2 * j1 - 1) := by
                    unfold tsv
                    rw [hts1frame (pl + 2 * j1 - 1) (by omega)]
                  rw [he]
                  have := hheap (2 * j1) (by omega) hb (by omega)
                  have hq : 2 * j1 / 2 = j1 := by omega
                  rw [hq] at this
                  exact this
                · rw [r6]
                  have he : tsv keys ts1 (pl + (2 * j1 + 1) - 1) =
                      tsv keys ts (pl + (2 * j1 + 1) - 1) := by
                    unfold tsv
                    rw [hts1frame (pl + (2 * j1 + 1) - 1) (by omega)]
                  rw [he]
                  have := hheap (2 * j1 + 1) (by omega) hb (by omega)
                  have hq : (2 * j1 + 1) / 2 = j1 := by omega
                  rw [hq] at this
                  exact this
              · -- the other child: untouched, and the selection said it is
                -- at most the promoted child
                have hxval : tsv keys (res.1.set (pl + res.2 - 1) tmp) (pl + x - 1) =
                    tsv keys ts (pl + x - 1) := by
                  unfold tsv
                  rw [huntouched x (by omega) hx2 (by omega) hxj1 (by omega)]
                rw [hxval]
                rcases hx2i with hx2i | hx2i
                · subst hx2i
                  exact hsel1
                · subst hx2i
                  have he : pl + (2 * i + 1) - 1 = pl + 2 * i := by omega
                  rw [he]
                  exact hsel2 hx2
            · -- a pair strictly between the hole and the promoted child:
              -- both positions untouched
              have hxa : tsv keys (res.1.set (pl + res.2 - 1) tmp) (pl + x - 1) =
                  tsv keys ts (pl + x - 1) := by
                unfold tsv
                rw [huntouched x (by omega) hx2 (by omega) (by omega) (by omega)]
              have hxb : tsv keys (res.1.set (pl + res.2 - 1) tmp) (pl + x / 2 - 1) =
                  tsv keys ts (pl + x / 2 - 1) := by
                unfold tsv
                rw [huntouched (x / 2) (by omega) (by omega) (by omega) (by omega) (by omega)]
              rw [hxa, hxb]
              exact hheap x hx1 hx2 hxi
          · exact r4 x hx1 hx2 hcase
        · intro x hx1 hx2
          rcases r5 x hx1 hx2 with r5x | ⟨y, hy1, hy2, he⟩
          · exact Or.inl r5x
          · right
            by_cases hyi : y = i
            · refine ⟨j1, by omega, hj1n, ?_⟩
              rw [he, hyi]
              unfold tsv
              rw [hts1self]
            · refine ⟨y, hy1, hy2, ?_⟩
              rw [he]
              unfold tsv
              rw [hts1frame (pl + y - 1) (by omega)]
        · have hroot : tsv keys (res.1.set (pl + res.2 - 1) tmp) (pl + i - 1) =
              tsv keys ts (pl + j1 - 1) := by
            unfold tsv
            rw [hval_i]
          rcases hj1cases with hj1c | hj1c
          · refine Or.inr (Or.inl ⟨?_, by omega⟩)
            rw [hroot, hj1c]
          · refine Or.inr (Or.inr ⟨?_, by omega⟩)
            rw [hroot, hj1c]

/-- The heapify phase establishes the max-heap ordering on the whole
segment, permuting only the segment. -/
theorem heapifyLoop_spec (keys : List Nat) (pl n : Nat) :
    ∀ (fuel : Nat) (ts : List Nat) (l : Nat),
      l ≤ fuel → 2 * l ≤ n → pl + n - 1 < ts.length →
      (∀ x, 2 ≤ x → x ≤ n → l < x / 2 →
        tsv keys ts (pl + x - 1) ≤ tsv keys ts (pl + x / 2 - 1)) →
      (heapifyLoop keys pl n fuel ts l).length = ts.length ∧
      (heapifyLoop keys pl n fuel ts l).Perm ts ∧
      (∀ p, p < pl ∨ pl + n - 1 < p →
        (heapifyLoop keys pl n fuel ts l).getD p 0 = ts.getD p 0) ∧
      (∀ x, 2 ≤ x → x ≤ n →
        tsv keys (heapifyLoop keys pl n fuel ts l) (pl + x - 1) ≤
          tsv keys (heapifyLoop keys pl n fuel ts l) (pl + x / 2 - 1)) := by
  intro fuel
  induction fuel with
  | zero =>
    intro ts l hfuel h2l hlen hinv
    have hl : l = 0 := by omega
    unfold heapifyLoop
    exact ⟨rfl, List.Perm.refl ts, fun p _ => rfl,
      fun x hx1 hx2 => hinv x hx1 hx2 (by omega)⟩
  | succ fuel ih =>
    intro ts l hfuel h2l hlen hinv
    unfold heapifyLoop
    by_cases hl : 1 ≤ l
    · rw [if_pos hl]
      set tmp := ts.getD (pl + l - 1) 0 with htmp
      obtain ⟨⟨s0a, s0b⟩, s1, s2, s3, _, s4, _, _⟩ :=
        siftDown_spec keys pl tmp n (n + 1) ts l (2 * l) rfl hl (by omega) (by omega)
          hlen (fun x hx1 hx2 hx3 => hinv x hx1 hx2 hx3)
      set res := siftDown keys pl tmp n (n + 1) ts l (2 * l) with hresdef
      set ts2 := res.1.set (pl + res.2 - 1) tmp with hts2
      have hperm2 : ts2.Perm ts := by
        have := s2
        rw [set_getD_self_eq ts (pl + l - 1) (by omega)] at this
        exact this
      have hlen2 : ts2.length = ts.length := s1
      have hinv2 : ∀ x, 2 ≤ x → x ≤ n → l - 1 < x / 2 →
          tsv keys ts2 (pl + x - 1) ≤ tsv keys ts2 (pl + x / 2 - 1) := by
        intro x hx1 hx2 hx3
        exact s4 x hx1 hx2 (by omega)
      obtain ⟨d1, d2, d3, d4⟩ := ih ts2 (l - 1) (by omega) (by omega) (by omega) hinv2
      refine ⟨by rw [d1, s1], d2.trans hperm2, ?_, d4⟩
      intro p hp
      rw [d3 p hp, s3 p (by omega)]
    · rw [if_neg hl]
      exact ⟨rfl, List.Perm.refl ts, fun p _ => rfl,
        fun x hx1 hx2 => hinv x hx1 hx2 (by omega)⟩

/-- In a max-heap on `[1, m]` every element is at most the root. -/
theorem heap_le_root (keys ts : List Nat) (pl m : Nat)
    (hheap : ∀ x, 2 ≤ x → x ≤ m →
      tsv keys ts (pl + x - 1) ≤ tsv keys ts (pl + x / 2 - 1)) :
    ∀ x, 1 ≤ x → x ≤ m → tsv keys ts (pl + x - 1) ≤ tsv keys ts pl := by
  intro x
  induction x using Nat.strong_induction_on with
  | _ x ih =>
    intro hx1 hx2
    rcases Nat.eq_or_lt_of_le hx1 with h | h
    · rw [← h]
      have he : pl + 1 - 1 = pl := by omega
      rw [he]
    · have hp := hheap x (by omega) hx2
      have hrec := ih (x / 2) (by omega) (by omega) (by omega)
      exact le_trans hp hrec

/-- The extraction phase of `aheapsort` turns a max-heap into an ascending
segment, permuting only the segment. -/
theorem heapExtract_spec (keys : List Nat) (pl N : Nat) :
    ∀ (fuel : Nat) (ts : List Nat) (n : Nat),
      n ≤ fuel → n ≤ N → pl + N - 1 < ts.length →
      (∀ x, 2 ≤ x → x ≤ n →
        tsv keys ts (pl + x - 1) ≤ tsv keys ts (pl + x / 2 - 1)) →
      (∀ x y, 1 ≤ x → x ≤ n → n < y → y ≤ N →
        tsv keys ts (pl + x - 1) ≤ tsv keys ts (pl + y - 1)) →
      (∀ y, n < y → y + 1 ≤ N → tsv keys ts (pl + y - 1) ≤ tsv keys ts (pl + y)) →
      (heapExtract keys pl fuel ts n).length = ts.length ∧
      (heapExtract keys pl fuel ts n).Perm ts ∧
      (∀ p, p < pl ∨ pl + N - 1 < p →
        (heapExtract keys pl fuel ts n).getD p 0 = ts.getD p 0) ∧
      (∀ q, 1 ≤ q → q + 1 ≤ N →
        tsv keys (heapExtract keys pl fuel ts n) (pl + q - 1) ≤
          tsv keys (heapExtract keys pl fuel ts n) (pl + q)) := by
  intro fuel
  induction fuel with
  | zero =>
    intro ts n hfuel hnN hlen hheap hps hsuf
    have hn : n = 0 := by omega
    unfold heapExtract
    refine ⟨rfl, List.Perm.refl ts, fun p _ => rfl, ?_⟩
    intro q hq1 hq2
    have := hsuf q (by omega) hq2
    simpa using this
  | succ fuel ih =>
    intro ts n hfuel hnN hlen hheap hps hsuf
    unfold heapExtract
    by_cases hn : 1 < n
    · rw [if_pos hn]
      set tmp := ts.getD (pl + n - 1) 0 with htmp
      set ts1 := ts.set (pl + n - 1) (ts.getD pl 0) with hts1
      have hlen1 : ts1.length = ts.length := by rw [hts1]; simp
      have hposn : pl + n - 1 < ts.length := by omega
      have hts1_at_n : ts1.getD (pl + n - 1) 0 = ts.getD pl 0 :=
        getD_set_self ts (pl + n - 1) _ hposn
      have hts1frame : ∀ p, p ≠ pl + n - 1 → ts1.getD p 0 = ts.getD p 0 :=
        fun p hp => getD_set_ne ts (pl + n - 1) p _ (fun he => hp he.symm)
      have hmax := heap_le_root keys ts pl n hheap
      have hheap1 : ∀ x, 2 ≤ x → x ≤ n - 1 → 1 < x / 2 →
          tsv keys ts1 (pl + x - 1) ≤ tsv keys ts1 (pl + x / 2 - 1) := by
        intro x hx1 hx2 _
        have hd : 2 * (x / 2) ≤ x := by omega
        unfold tsv
        rw [hts1frame (pl + x - 1) (by omega), hts1frame (pl + x / 2 - 1) (by omega)]
        exact hheap x hx1 (by omega)
      obtain ⟨⟨s0a, s0b⟩, s1, s2, s3, _, s4, s5, _⟩ :=
        siftDown_spec keys pl tmp (n - 1) ((n - 1) + 1) ts1 1 2 (by omega) (le_refl 1)
          (by omega) (by omega) (by omega) hheap1
      set res := siftDown keys pl tmp (n - 1) ((n - 1) + 1) ts1 1 2 with hresdef
      set ts2 := res.1.set (pl + res.2 - 1) tmp with hts2def
      have hlen2 : ts2.length = ts.length := by rw [s1, hlen1]
      have hperm2 : ts2.Perm ts := by
        have h1 : ts2.Perm (ts1.set (pl + 1 - 1) tmp) := s2
        have he : pl + 1 - 1 = pl := by omega
        rw [he] at h1
        have h2 : (ts1.set pl tmp).Perm (ts.set (pl + n - 1) tmp) := by
          rw [hts1]
          exact set_transpose_perm ts (pl + n - 1) pl tmp (by omega) hposn (by omega)
        have h3 : ts.set (pl + n - 1) tmp = ts := by
          rw [htmp]
          exact set_getD_self_eq ts (pl + n - 1) hposn
        rw [h3] at h2
        exact h1.trans h2
      -- value facts for the recursion hypotheses
      have hval_at_n : ts2.getD (pl + n - 1) 0 = ts.getD pl 0 := by
        rw [s3 (pl + n - 1) (Or.inr (by omega)), hts1_at_n]
      have hval_beyond : ∀ y, n < y → y ≤ N → ts2.getD (pl + y - 1) 0 = ts.getD (pl + y - 1) 0 := by
        intro y hy1 hy2
        rw [s3 (pl + y - 1) (Or.inr (by omega)), hts1frame (pl + y - 1) (by omega)]
      have hpref_le : ∀ x, 1 ≤ x → x ≤ n - 1 →
          tsv keys ts2 (pl + x - 1) ≤ tsv keys ts pl := by
        intro x hx1 hx2
        rcases s5 x hx1 hx2 with h | ⟨y, hy1, hy2, he⟩
        · rw [h, htmp]
          have := hmax n (by omega) (le_refl n)
          unfold tsv at this ⊢
          exact this
        · rw [he]
          have he2 : tsv keys ts1 (pl + y - 1) = tsv keys ts (pl + y - 1) := by
            unfold tsv
            rw [hts1frame (pl + y - 1) (by omega)]
          rw [he2]
          exact hmax y hy1 (by omega)
      obtain ⟨d1, d2, d3, d4⟩ := ih ts2 (n - 1) (by omega) (by omega) (by rw [hlen2]; omega)
        (fun x hx1 hx2 => s4 x hx1 hx2 (by omega))
        (by -- prefix values stay at most every suffix value
          intro x y hx1 hx2 hy1 hy2
          have hx3 := hpref_le x hx1 (by omega)
          by_cases hyn : y = n
          · rw [hyn]
            have he : tsv keys ts2 (pl + n - 1) = tsv keys ts pl := by
              unfold tsv; rw [hval_at_n]
            rw [he]
            exact hx3
          · have he : tsv keys ts2 (pl + y - 1) = tsv keys ts (pl + y - 1) := by
              unfold tsv; rw [hval_beyond y (by omega) hy2]
            rw [he]
            refine le_trans hx3 ?_
            have := hps 1 (by omega) (by omega) (y := y) (by omega) hy2
            have hpe : pl + 1 - 1 = pl := by omega
            rw [hpe] at this
            exact this)
        (by -- the suffix stays sorted, with the old root appended at `n`
          intro y hy1 hy2
          by_cases hyn : y = n
          · rw [hyn] at hy1 hy2 ⊢
            have hea : tsv keys ts2 (pl + n - 1) = tsv keys ts pl := by
              unfold tsv; rw [hval_at_n]
            have heb : tsv keys ts2 (pl + n) = tsv keys ts (pl + n) := by
              unfold tsv
              have he2 : pl + n = pl + (n + 1) - 1 := by omega
              rw [he2, hval_beyond (n + 1) (by omega) (by omega)]
            rw [hea, heb]
            have := hps 1 (by omega) (by omega) (y := n + 1) (by omega) (by omega)
            have hpe : pl + 1 - 1 = pl := by omega
            have hpe2 : pl + (n + 1) - 1 = pl + n := by omega
            rw [hpe, hpe2] at this
            exact this
          · have hea : tsv keys ts2 (pl + y - 1) = tsv keys ts (pl + y - 1) := by
              unfold tsv; rw [hval_beyond y (by omega) (by omega)]
            have heb : tsv keys ts2 (pl + y) = tsv keys ts (pl + y) := by
              unfold tsv
              have he2 : pl + y = pl + (y + 1) - 1 := by omega
              rw [he2, hval_beyond (y + 1) (by omega) (by omega)]
            rw [hea, heb]
            exact hsuf y (by omega) hy2)
      refine ⟨by rw [d1, hlen2], d2.trans hperm2, ?_, d4⟩
      intro p hp
      rw [d3 p hp, s3 p (by omega), hts1frame p (by omega)]
    · rw [if_neg hn]
      refine ⟨rfl, List.Perm.refl ts, fun p _ => rfl, ?_⟩
      intro q hq1 hq2
      by_cases hqe : q = n
      · have := hps q hq1 (by omega) (y := q + 1) (by omega) (by omega)
        have he : pl + (q + 1) - 1 = pl + q := by omega
        rw [he] at this
        exact this
      · have := hsuf q (by omega) hq2
        exact this

/-- `aheapsort` on the segment `[pl, pl + n - 1]`: sorts it ascending,
permuting only the segment. -/
theorem heapsortSeg_spec (keys ts : List Nat) (pl n : Nat)
    (hlen : pl + n - 1 < ts.length) :
    (heapsortSeg keys ts pl n).length = ts.length ∧
    (heapsortSeg keys ts pl n).Perm ts ∧
    (∀ p, p < pl ∨ pl + n - 1 < p → (heapsortSeg keys ts pl n).getD p 0 = ts.getD p 0) ∧
    (∀ q, pl ≤ q → q + 1 ≤ pl + n - 1 →
      tsv keys (heapsortSeg keys ts pl n) q ≤ tsv keys (heapsortSeg keys ts pl n) (q + 1)) := by
  obtain ⟨h1, h2, h3, h4⟩ := heapifyLoop_spec keys pl n (n / 2 + 1) ts (n / 2)
    (by omega) (by omega) hlen
    (by intro x hx1 hx2 hx3
        have hd : 2 * (x / 2) ≤ x := by omega
        omega)
  set ts1 := heapifyLoop keys pl n (n / 2 + 1) ts (n / 2) with hts1
  obtain ⟨e1, e2, e3, e4⟩ := heapExtract_spec keys pl n (n + 1) ts1 n (by omega) (le_refl n)
    (by rw [h1]; omega) h4
    (by intro x y _ _ hy1 hy2; omega)
    (by intro y hy1 hy2; omega)
  have hsort : heapsortSeg keys ts pl n = heapExtract keys pl (n + 1) ts1 n := rfl
  rw [hsort]
  refine ⟨by rw [e1, h1], e2.trans h2, ?_, ?_⟩
  · intro p hp
    rw [e3 p hp, h3 p hp]
  · intro q hq1 hq2
    have := e4 (q - pl + 1) (by omega) (by omega)
    have hea : pl + (q - pl + 1) - 1 = q := by omega
    have heb : pl + (q - pl + 1) = q + 1 := by omega
    rw [hea, heb] at this
    exact this

/-- If a permutation of a list only moves entries inside `[pl, pr]`, then
every value now inside the segment was already inside the segment before. -/
theorem seg_value_source (ts ts' : List Nat) (pl pr : Nat)
    (hlen : ts'.length = ts.length) (hperm : ts'.Perm ts)
    (hframe : ∀ p, p < pl ∨ pr < p → ts'.getD p 0 = ts.getD p 0)
    (q : Nat) (hq1 : pl ≤ q) (hq2 : q ≤ pr) (hq3 : q < ts.length) :
    ∃ r, pl ≤ r ∧ r ≤ pr ∧ r < ts.length ∧ ts'.getD q 0 = ts.getD r 0 := by
  have hpre : ts'.take pl = ts.take pl := by
    apply List.ext_getElem
    · simp [hlen]
    · intro i h1 h2
      have hi : i < pl := by
        rw [List.length_take] at h1
        omega
      have hilen : i < ts'.length := by
        rw [List.length_take] at h1
        omega
      have hf := hframe i (Or.inl hi)
      rw [List.getD_eq_getElem _ _ hilen, List.getD_eq_getElem _ _ (by omega)] at hf
      rw [List.getElem_take, List.getElem_take]
      exact hf
  have hsuf : ts'.drop (pr + 1) = ts.drop (pr + 1) := by
    apply List.ext_getElem
    · simp [hlen]
    · intro i h1 h2
      have hilen : pr + 1 + i < ts'.length := by
        rw [List.length_drop] at h1
        omega
      have hf := hframe (pr + 1 + i) (Or.inr (by omega))
      rw [List.getD_eq_getElem _ _ hilen, List.getD_eq_getElem _ _ (by omega)] at hf
      rw [List.getElem_drop, List.getElem_drop]
      exact hf
  have hdecomp' : ts' = ts'.take pl ++ ((ts'.drop pl).take (pr + 1 - pl) ++ ts'.drop (pr + 1)) := by
    conv_lhs => rw [← List.take_append_drop pl ts']
    congr 1
    conv_lhs => rw [← List.take_append_drop (pr + 1 - pl) (ts'.drop pl)]
    congr 1
    rw [List.drop_drop]
    congr 1
    omega
  have hdecomp : ts = ts.take pl ++ ((ts.drop pl).take (pr + 1 - pl) ++ ts.drop (pr + 1)) := by
    conv_lhs => rw [← List.take_append_drop pl ts]
    congr 1
    conv_lhs => rw [← List.take_append_drop (pr + 1 - pl) (ts.drop pl)]
    congr 1
    rw [List.drop_drop]
    congr 1
    omega
  have hpermA : ((ts'.drop pl).take (pr + 1 - pl)).Perm ((ts.drop pl).take (pr + 1 - pl)) := by
    have h := hperm
    rw [hdecomp'] at h
    conv at h => rw [hdecomp]
    rw [hpre, hsuf] at h
    rw [List.perm_append_left_iff] at h
    rw [List.perm_append_right_iff] at h
    exact h
  have hqlen' : q - pl < ((ts'.drop pl).take (pr + 1 - pl)).length := by
    rw [List.length_take, List.length_drop, hlen]
    omega
  have hmem : ts'.getD q 0 ∈ (ts'.drop pl).take (pr + 1 - pl) := by
    rw [List.mem_iff_getElem]
    refine ⟨q - pl, hqlen', ?_⟩
    rw [List.getElem_take, List.getElem_drop, List.getD_eq_getElem _ _ (by omega)]
    congr 1
    omega
  have hmemA : ts'.getD q 0 ∈ (ts.drop pl).take (pr + 1 - pl) := hpermA.mem_iff.mp hmem
  obtain ⟨k, hk, hkeq⟩ := List.getElem_of_mem hmemA
  have hkb : k < pr + 1 - pl ∧ pl + k < ts.length := by
    rw [List.length_take, List.length_drop] at hk
    omega
  refine ⟨pl + k, by omega, by omega, hkb.2, ?_⟩
  rw [List.getElem_take, List.getElem_drop] at hkeq
  rw [List.getD_eq_getElem _ _ hkb.2]
  exact hkeq.symm

/-- `introSeg` with no fuel returns its input. -/
theorem introSeg_zero (keys ts : List Nat) (pl pr : Nat) (depth : Int) :
    introSeg keys 0 ts pl pr depth = (ts, depth) := rfl

/-- One unfolding of `introSeg`, with the `let`s expanded. -/
theorem introSeg_succ (keys : List Nat) (fuel : Nat) (ts : List Nat) (pl pr : Nat)
    (depth : Int) :
    introSeg keys (fuel + 1) ts pl pr depth =
      if SMALL_QUICKSORT < pr - pl then
        if depth < 0 then
          (heapsortSeg keys ts pl (pr - pl + 1), depth - 1)
        else
          if (partitionSeg keys ts pl pr).2 - pl < pr - (partitionSeg keys ts pl pr).2 then
            introSeg keys fuel
              (introSeg keys fuel (partitionSeg keys ts pl pr).1 pl
                ((partitionSeg keys ts pl pr).2 - 1) (depth - 1)).1
              ((partitionSeg keys ts pl pr).2 + 1) pr
              (introSeg keys fuel (partitionSeg keys ts pl pr).1 pl
                ((partitionSeg keys ts pl pr).2 - 1) (depth - 1)).2
          else
            introSeg keys fuel
              (introSeg keys fuel (partitionSeg keys ts pl pr).1
                ((partitionSeg keys ts pl pr).2 + 1) pr (depth - 1)).1
              pl ((partitionSeg keys ts pl pr).2 - 1)
              (introSeg keys fuel (partitionSeg keys ts pl pr).1
                ((partitionSeg keys ts pl pr).2 + 1) pr (depth - 1)).2
      else
        (insertionSeg keys ts pl pr, depth) := rfl

/-- Full specification of the recursive introsort driver: with enough fuel it
permutes the segment `[pl, pr]` in place (positions outside are untouched) and
leaves the segment sorted by key. -/
theorem introSeg_spec (keys : List Nat) : ∀ (fuel : Nat) (ts : List Nat) (pl pr : Nat)
    (depth : Int), pr < ts.length → pr + 1 ≤ fuel + pl →
    (introSeg keys fuel ts pl pr depth).1.length = ts.length ∧
    (introSeg keys fuel ts pl pr depth).1.Perm ts ∧
    (∀ p, p < pl ∨ pr < p → (introSeg keys fuel ts pl pr depth).1.getD p 0 = ts.getD p 0) ∧
    (∀ q, pl ≤ q → q + 1 ≤ pr →
      tsv keys (introSeg keys fuel ts pl pr depth).1 q ≤
        tsv keys (introSeg keys fuel ts pl pr depth).1 (q + 1)) := by
  intro fuel
  induction fuel with
  | zero =>
    intro ts pl pr depth hlen hfuel
    rw [introSeg_zero]
    exact ⟨rfl, List.Perm.refl _, fun p _ => rfl, fun q hq1 hq2 => by omega⟩
  | succ fuel ih =>
    intro ts pl pr depth hlen hfuel
    rw [introSeg_succ]
    by_cases hbig : SMALL_QUICKSORT < pr - pl
    · have h15 : 15 < pr - pl := hbig
      rw [if_pos hbig]
      by_cases hdep : depth < 0
      · rw [if_pos hdep]
        obtain ⟨h1, h2, h3, h4⟩ := heapsortSeg_spec keys ts pl (pr - pl + 1) (by omega)
        exact ⟨h1, h2, fun p hp => h3 p (by omega), fun q hq1 hq2 => h4 q hq1 (by omega)⟩
      · rw [if_neg hdep]
        obtain ⟨p1, p2, p3, p4, p5, p6, p7⟩ := partitionSeg_spec keys ts pl pr hbig hlen
        set ts0 := (partitionSeg keys ts pl pr).1 with hts0def
        set piv := (partitionSeg keys ts pl pr).2 with hpivdef
        by_cases hbr : piv - pl < pr - piv
        · rw [if_pos hbr]
          obtain ⟨a1, a2, a3, a4⟩ := ih ts0 pl (piv - 1) (depth - 1)
            (by rw [p1]; omega) (by omega)
          set r1 := introSeg keys fuel ts0 pl (piv - 1) (depth - 1) with hr1def
          obtain ⟨b1, b2, b3, b4⟩ := ih r1.1 (piv + 1) pr r1.2
            (by rw [a1, p1]; exact hlen) (by omega)
          set r2 := introSeg keys fuel r1.1 (piv + 1) pr r1.2 with hr2def
          have hpivval : r2.1.getD piv 0 = ts0.getD piv 0 := by
            rw [b3 piv (Or.inl (by omega)), a3 piv (Or.inr (by omega))]
          have hleft : ∀ p, p ≤ piv - 1 → r2.1.getD p 0 = r1.1.getD p 0 :=
            fun p hp => b3 p (Or.inl (by omega))
          refine ⟨?_, ?_, ?_, ?_⟩
          · rw [b1, a1, p1]
          · exact (b2.trans a2).trans p2
          · intro p hp
            rcases hp with hp | hp
            · rw [b3 p (Or.inl (by omega)), a3 p (Or.inl hp), p3 p (Or.inl hp)]
            · rw [b3 p (Or.inr hp), a3 p (Or.inr (by omega)), p3 p (Or.inr hp)]
          · intro q hq1 hq2
            by_cases hc1 : q + 1 ≤ piv - 1
            · have e1 : tsv keys r2.1 q = tsv keys r1.1 q :=
                congrArg (kv keys) (hleft q (by omega))
              have e2 : tsv keys r2.1 (q + 1) = tsv keys r1.1 (q + 1) :=
                congrArg (kv keys) (hleft (q + 1) hc1)
              rw [e1, e2]
              exact a4 q hq1 hc1
            · by_cases hc2 : q + 1 = piv
              · obtain ⟨r, hr1, hr2, hr3, hreq⟩ := seg_value_source ts0 r1.1 pl (piv - 1)
                  a1 a2 a3 q hq1 (by omega) (by rw [p1]; omega)
                have e1 : tsv keys r2.1 q = tsv keys ts0 r :=
                  congrArg (kv keys) (by rw [hleft q (by omega)]; exact hreq)
                have e2 : tsv keys r2.1 (q + 1) = tsv keys ts0 piv := by
                  rw [hc2]
                  exact congrArg (kv keys) hpivval
                rw [e1, e2]
                exact p6 r hr1 (by omega)
              · by_cases hc3 : q = piv
                · obtain ⟨r, hr1, hr2, hr3, hreq⟩ := seg_value_source r1.1 r2.1 (piv + 1) pr
                    b1 b2 b3 (piv + 1) (le_refl _) (by omega) (by rw [a1, p1]; omega)
                  have e1 : tsv keys r2.1 q = tsv keys ts0 piv := by
                    rw [hc3]
                    exact congrArg (kv keys) hpivval
                  have e2 : tsv keys r2.1 (q + 1) = tsv keys ts0 r := by
                    rw [hc3]
                    exact congrArg (kv keys) (by rw [hreq]; exact a3 r (Or.inr (by omega)))
                  rw [e1, e2]
                  exact p7 r (by omega) hr2
                · exact b4 q (by omega) hq2
        · rw [if_neg hbr]
          obtain ⟨a1, a2, a3, a4⟩ := ih ts0 (piv + 1) pr (depth - 1)
            (by rw [p1]; exact hlen) (by omega)
          set r1 := introSeg keys fuel ts0 (piv + 1) pr (depth - 1) with hr1def
          obtain ⟨b1, b2, b3, b4⟩ := ih r1.1 pl (piv - 1) r1.2
            (by rw [a1, p1]; omega) (by omega)
          set r2 := introSeg keys fuel r1.1 pl (piv - 1) r1.2 with hr2def
          have hpivval : r2.1.getD piv 0 = ts0.getD piv 0 := by
            rw [b3 piv (Or.inr (by omega)), a3 piv (Or.inl (by omega))]
          have hright : ∀ p, piv ≤ p → r2.1.getD p 0 = r1.1.getD p 0 :=
            fun p hp => b3 p (Or.inr (by omega))
          refine ⟨?_, ?_, ?_, ?_⟩
          · rw [b1, a1, p1]
          · exact (b2.trans a2).trans p2
          · intro p hp
            rcases hp with hp | hp
            · rw [b3 p (Or.inl hp), a3 p (Or.inl (by omega)), p3 p (Or.inl hp)]
            · rw [b3 p (Or.inr (by omega)), a3 p (Or.inr hp), p3 p (Or.inr hp)]
          · intro q hq1 hq2
            by_cases hc1 : q + 1 ≤ piv - 1
            · exact b4 q hq1 hc1
            · by_cases hc2 : q + 1 = piv
              · obtain ⟨r, hr1, hr2, hr3, hreq⟩ := seg_value_source r1.1 r2.1 pl (piv - 1)
                  b1 b2 b3 q hq1 (by omega) (by rw [a1, p1]; omega)
                have e1 : tsv keys r2.1 q = tsv keys ts0 r :=
                  congrArg (kv keys) (by rw [hreq]; exact a3 r (Or.inl (by omega)))
                have e2 : tsv keys r2.1 (q + 1) = tsv keys ts0 piv := by
                  rw [hc2]
                  exact congrArg (kv keys) hpivval
                rw [e1, e2]
                exact p6 r hr1 (by omega)
              · by_cases hc3 : q = piv
                · obtain ⟨r, hr1, hr2, hr3, hreq⟩ := seg_value_source ts0 r1.1 (piv + 1) pr
                    a1 a2 a3 (piv + 1) (le_refl _) (by omega) (by rw [p1]; omega)
                  have e1 : tsv keys r2.1 q = tsv keys ts0 piv := by
                    rw [hc3]
                    exact congrArg (kv keys) hpivval
                  have e2 : tsv keys r2.1 (q + 1) = tsv keys ts0 r := by
                    rw [hc3]
                    exact congrArg (kv keys) (by rw [hright (piv + 1) (by omega)]; exact hreq)
                  rw [e1, e2]
                  exact p7 r (by omega) hr2
                · have e1 : tsv keys r2.1 q = tsv keys r1.1 q :=
                    congrArg (kv keys) (hright q (by omega))
                  have e2 : tsv keys r2.1 (q + 1) = tsv keys r1.1 (q + 1) :=
                    congrArg (kv keys) (hright (q + 1) (by omega))
                  rw [e1, e2]
                  exact a4 q (by omega) hq2
    · rw [if_neg hbig]
      obtain ⟨i1, i2, i3, i4⟩ := insertionSeg_spec keys ts pl pr hlen
      exact ⟨i1, i2, i3, i4⟩

/-- `getD` through `map`, inside the list. -/
theorem getD_map_lt {α β : Type} (f : α → β) (l : List α) (q : Nat) (hq : q < l.length)
    (d : β) (d' : α) : (l.map f).getD q d = f (l.getD q d') := by
  rw [List.getD_eq_getElem _ _ (by rw [List.length_map]; exact hq),
    List.getD_eq_getElem _ _ hq, List.getElem_map]

/-- Reading a list back off the identity index list reproduces it. -/
theorem map_getD_range (l : List Nat) :
    (List.range l.length).map (fun p => l.getD p 0) = l := by
  apply List.ext_getElem
  · rw [List.length_map, List.length_range]
  · intro i h1 h2
    rw [List.getElem_map, List.getElem_range, List.getD_eq_getElem _ _ h2]

/-- `npArgsort` of an empty key list is empty. -/
theorem npArgsort_nil (keys : List Nat) (h : keys.length = 0) : npArgsort keys = [] := by
  unfold npArgsort
  rw [h]
  rfl

/-- `npArgsort` produces a permutation of the identity index list that
enumerates the keys in ascending order. -/
theorem npArgsort_spec (keys : List Nat) :
    (npArgsort keys).length = keys.length ∧
    (npArgsort keys).Perm (List.range keys.length) ∧
    (∀ q, q + 1 < keys.length →
      kv keys ((npArgsort keys).getD q 0) ≤ kv keys ((npArgsort keys).getD (q + 1) 0)) := by
  by_cases h : keys.length = 0
  · rw [npArgsort_nil keys h, h]
    exact ⟨rfl, List.Perm.refl _, fun q hq => by omega⟩
  · have e : npArgsort keys = (introSeg keys (keys.length + 2) (List.range keys.length) 0
      (keys.length - 1) (2 * (npyMsb keys.length : Int))).1 := rfl
    obtain ⟨s1, s2, s3, s4⟩ := introSeg_spec keys (keys.length + 2) (List.range keys.length)
      0 (keys.length - 1) (2 * (npyMsb keys.length : Int))
      (by rw [List.length_range]; omega) (by omega)
    refine ⟨?_, ?_, ?_⟩
    · rw [e, s1, List.length_range]
    · rw [e]
      exact s2
    · intro q hq
      rw [e]
      exact s4 q (Nat.zero_le q) (by omega)

/-- `nargsort` unfolded: argsort of the non-null keys, mapped back to
original positions, then the null positions in original order. -/
theorem nargsort_decomp (okeys : List (Option Nat)) :
    nargsort okeys =
      ((npArgsort ((((List.range okeys.length).filter fun i => (okeys.getD i none).isSome)).map
          fun i => (okeys.getD i none).getD 0)).map
        fun q => (((List.range okeys.length).filter fun i =>
          (okeys.getD i none).isSome)).getD q 0)
      ++ ((List.range okeys.length).filter fun i => (okeys.getD i none).isNone) := rfl

/-- `isNone` is the negation of `isSome`. -/
theorem isNone_eq_not_isSome (o : Option Nat) : o.isNone = !o.isSome := by
  cases o <;> rfl

/-- Structure of `nargsort`: a permutation of all positions, split as the
positions with non-null keys — enumerated in ascending key order — followed
by exactly the null positions in their original order. -/
theorem nargsort_spec (okeys : List (Option Nat)) :
    (nargsort okeys).Perm (List.range okeys.length) ∧
    nargsort okeys = ((nargsort okeys).filter fun i => (okeys.getD i none).isSome) ++
      ((List.range okeys.length).filter fun i => (okeys.getD i none).isNone) ∧
    (∀ q, q + 1 < ((nargsort okeys).filter fun i => (okeys.getD i none).isSome).length →
      (okeys.getD (((nargsort okeys).filter fun i =>
          (okeys.getD i none).isSome).getD q 0) none).getD 0 ≤
        (okeys.getD (((nargsort okeys).filter fun i =>
          (okeys.getD i none).isSome).getD (q + 1) 0) none).getD 0) := by
  have hdec := nargsort_decomp okeys
  set nonNanIdx := (List.range okeys.length).filter fun i => (okeys.getD i none).isSome
    with hnnidef
  set nanIdx := (List.range okeys.length).filter fun i => (okeys.getD i none).isNone
    with hnandef
  set nonNans := nonNanIdx.map fun i => (okeys.getD i none).getD 0 with hnnsdef
  set valid := (npArgsort nonNans).map fun q => nonNanIdx.getD q 0 with hvdef
  obtain ⟨a1, a2, a3⟩ := npArgsort_spec nonNans
  have hnnlen : nonNans.length = nonNanIdx.length := by rw [hnnsdef, List.length_map]
  have hvlen : valid.length = nonNans.length := by rw [hvdef, List.length_map, a1]
  have hvalid_mem : ∀ i ∈ valid, (okeys.getD i none).isSome = true := by
    intro i hi
    rw [hvdef] at hi
    obtain ⟨q, hq, hqe⟩ := List.mem_map.mp hi
    have hqlt : q < nonNans.length := by
      have := List.mem_range.mp (a2.mem_iff.mp hq)
      omega
    have hmem : nonNanIdx.getD q 0 ∈ nonNanIdx := by
      rw [List.getD_eq_getElem _ _ (by omega)]
      exact List.getElem_mem _
    rw [← hqe]
    exact (List.mem_filter.mp hmem).2
  have hnan_mem : ∀ i ∈ nanIdx, (okeys.getD i none).isSome = false := by
    intro i hi
    have h := (List.mem_filter.mp hi).2
    rw [isNone_eq_not_isSome] at h
    cases hs : (okeys.getD i none).isSome
    · rfl
    · rw [hs] at h
      exact absurd h (by decide)
  have hvperm : valid.Perm nonNanIdx := by
    rw [hvdef]
    have h1 : ((npArgsort nonNans).map fun q => nonNanIdx.getD q 0).Perm
        ((List.range nonNans.length).map fun q => nonNanIdx.getD q 0) :=
      List.Perm.map _ a2
    rw [hnnlen, map_getD_range] at h1
    exact h1
  have hfilter_valid : valid.filter (fun i => (okeys.getD i none).isSome) = valid :=
    List.filter_eq_self.mpr hvalid_mem
  have hfilter_nan : nanIdx.filter (fun i => (okeys.getD i none).isSome) = [] :=
    List.filter_eq_nil_iff.mpr (fun a ha => by rw [hnan_mem a ha]; exact Bool.false_ne_true)
  have hresfilter : (nargsort okeys).filter (fun i => (okeys.getD i none).isSome) = valid := by
    rw [hdec, List.filter_append, hfilter_valid, hfilter_nan, List.append_nil]
  refine ⟨?_, ?_, ?_⟩
  · rw [hdec]
    have h2 : (valid ++ nanIdx).Perm (nonNanIdx ++ nanIdx) :=
      List.Perm.append hvperm (List.Perm.refl _)
    refine h2.trans ?_
    have h3 := List.filter_append_perm (fun i => (okeys.getD i none).isSome)
      (List.range okeys.length)
    rw [hnnidef, hnandef]
    have h4 : ((List.range okeys.length).filter fun i => (okeys.getD i none).isNone) =
        ((List.range okeys.length).filter fun i => !(okeys.getD i none).isSome) :=
      List.filter_congr (fun x _ => isNone_eq_not_isSome _)
    rw [h4]
    exact h3
  · rw [hresfilter]
    exact hdec
  · intro q hq
    rw [hresfilter] at hq ⊢
    have hq2 : q + 1 < (npArgsort nonNans).length := by
      rw [hvdef, List.length_map] at hq
      exact hq
    have hgv : ∀ r, r < (npArgsort nonNans).length →
        valid.getD r 0 = nonNanIdx.getD ((npArgsort nonNans).getD r 0) 0 := by
      intro r hr
      rw [hvdef]
      exact getD_map_lt _ _ r hr 0 0
    have hjlt : ∀ r, r < (npArgsort nonNans).length →
        (npArgsort nonNans).getD r 0 < nonNanIdx.length := by
      intro r hr
      have hmem : (npArgsort nonNans).getD r 0 ∈ npArgsort nonNans := by
        rw [List.getD_eq_getElem _ _ hr]
        exact List.getElem_mem _
      have := List.mem_range.mp (a2.mem_iff.mp hmem)
      omega
    have hkey : ∀ r, r < (npArgsort nonNans).length →
        (okeys.getD (valid.getD r 0) none).getD 0 =
          kv nonNans ((npArgsort nonNans).getD r 0) := by
      intro r hr
      rw [hgv r hr]
      have : kv nonNans ((npArgsort nonNans).getD r 0) =
          nonNans.getD ((npArgsort nonNans).getD r 0) 0 := rfl
      rw [this, hnnsdef,
        getD_map_lt (fun i => (okeys.getD i none).getD 0) nonNanIdx _ (hjlt r hr) 0 0]
    rw [hkey q (by omega), hkey (q + 1) hq2]
    exact a3 q (by rw [← a1]; exact hq2)

/-- The key of record `i` of the batch, through the mapped key list. -/
theorem keyAt_map (data : List Record) (i : Nat) :
    (data.map recordKey).getD i none = recordKey (data.getD i default) := by
  by_cases h : i < data.length
  · exact getD_map_lt recordKey data i h none default
  · rw [List.getD_eq_default _ _ (by rw [List.length_map]; omega),
      List.getD_eq_default _ _ (by omega)]
    rfl

/-- C4 counterexample: the sort of `save_to_csv` is pandas' default
`quicksort` (numpy introsort), which is not stable — a batch of 17 records
with identical parsable timestamps is exported in a different order than the
batch order, so ties do not preserve their relative batch order. -/
theorem timestamp_tie_order_not_preserved_cex :
    ((save_to_csv ((List.range 17).map fun i =>
        ({ file := toString i, latitude := 1, longitude := 1,
           dateTime := some "2023:01:05 12:30:00" } : Record))).rows.map Row.file) ≠
      (List.range 17).map (fun i => toString i) := by
  decide

/-- C4 (amended): `save_to_csv` emits one row per batch record (the row
positions are a permutation of the batch positions); the permutation is the
non-null-key positions followed by exactly the null-key positions in their
original batch order (nulls last, order-preserving); and along the non-null
prefix the parsed timestamp keys are ascending.  (Tie order among equal
valid timestamps is NOT preserved; see the counterexample.) -/
theorem csv_sorted_nulls_last (data : List Record) :
    (save_to_csv data).rows =
      (nargsort (data.map recordKey)).map (fun i => renderRow (data.getD i default)) ∧
    (nargsort (data.map recordKey)).Perm (List.range data.length) ∧
    nargsort (data.map recordKey) =
      ((nargsort (data.map recordKey)).filter fun i =>
        (recordKey (data.getD i default)).isSome) ++
      ((List.range data.length).filter fun i => (recordKey (data.getD i default)).isNone) ∧
    (∀ q, q + 1 < ((nargsort (data.map recordKey)).filter fun i =>
        (recordKey (data.getD i default)).isSome).length →
      (recordKey (data.getD (((nargsort (data.map recordKey)).filter fun i =>
          (recordKey (data.getD i default)).isSome).getD q 0) default)).getD 0 ≤
        (recordKey (data.getD (((nargsort (data.map recordKey)).filter fun i =>
          (recordKey (data.getD i default)).isSome).getD (q + 1) 0) default)).getD 0) := by
  obtain ⟨hperm, hdec, hsort⟩ := nargsort_spec (data.map recordKey)
  have hS : (fun i => ((data.map recordKey).getD i none).isSome) =
      (fun i => (recordKey (data.getD i default)).isSome) :=
    funext fun i => by rw [keyAt_map]
  have hN : (fun i => ((data.map recordKey).getD i none).isNone) =
      (fun i => (recordKey (data.getD i default)).isNone) :=
    funext fun i => by rw [keyAt_map]
  rw [hS] at hsort
  rw [hS, hN, List.length_map] at hdec
  rw [List.length_map] at hperm
  refine ⟨rfl, hperm, hdec, ?_⟩
  intro q hq
  have h := hsort q hq
  rw [keyAt_map data, keyAt_map data] at h
  exact h

end ImageToGps
